import Mathlib

/-!
Shallow embedding of the block-level storage engine in
`src/filesys/inode.c`: the on-disk inode format (direct / single-indirect /
double-indirect pointers), sector-count arithmetic, byte-offset-to-sector
translation (`byte_to_sector`), the grow/shrink operation (`inode_resize`),
byte-oriented I/O (`inode_read_at` / `inode_write_at`), and the fixed-size
buffer cache (`cache_init` / `find_block_and_acq_lock`).

Modelling conventions:
- `block_sector_t` and `size_t` are 32-bit unsigned; arithmetic that can
  wrap is made explicit with `sub32` (subtraction modulo 2^32).  `off_t`
  values handled by the engine are non-negative, so byte lengths and
  offsets are `Nat`.
- The buffer cache is write-back and sits transparently between the inode
  layer and the device, so for inode-layer functions the cache and the
  device are merged into a single sector-addressed store
  `Disk := Nat → List Nat`.  A sector read as an index table is a list of
  128 sector numbers (`read_table`), a sector read as file data is a list
  of 512 bytes (`read_data`); fixed-size device reads are modelled by
  padding with zeros (`List.takeD`), mirroring the fact that the C code
  always transfers exactly `BLOCK_SECTOR_SIZE` bytes.
- Reading an array out of bounds (a VLA indexed past its extent, or a
  negative/wrapped index into a fixed array) is undefined behaviour in the
  source; such executions are modelled as `Except.error ()`.
- The free-map allocator lives outside `src/`; it is modelled from the
  spec (see `free_map_allocate_non_consecutive`).
-/

set_option maxRecDepth 16000

def BLOCK_SECTOR_SIZE : Nat := 512

/-- 32-bit unsigned subtraction `a - b` (both operands already < 2^32),
    as performed by the C code on `size_t` operands. -/
def sub32 (a b : Nat) : Nat := (a + 4294967296 - b) % 4294967296

/-- `bytes_to_sectors` from inode.c: `DIV_ROUND_UP(size, BLOCK_SECTOR_SIZE)`,
    the number of data sectors for an inode of SIZE bytes. -/
def bytes_to_sectors (size : Nat) : Nat :=
  (size + BLOCK_SECTOR_SIZE - 1) / BLOCK_SECTOR_SIZE

/-- `bytes_to_blocks` from inode.c: all sectors for an inode of SIZE bytes,
    including the metadata sector and index (internal) sectors. -/
def bytes_to_blocks (size : Nat) : Nat :=
  let data_num := bytes_to_sectors size
  if data_num ≤ 12 then
    data_num + 1
  else if data_num ≤ 128 + 12 then
    data_num + 2
  else
    data_num + (data_num - 140) / 128 + 3

/-- On-disk inode metadata (`struct inode_disk`). -/
structure InodeDisk where
  direct : List Nat          -- block_sector_t direct[12]
  indirect : Nat             -- block_sector_t indirect
  indirect_double : Nat      -- block_sector_t indirect_double
  length : Nat               -- off_t length (non-negative)
  magic : Nat                -- unsigned magic
deriving Repr, DecidableEq

/-- Sector-addressed store (cache + device merged; see module comment). -/
def Disk : Type := Nat → List Nat

/-- Point update of the store: `cache_write` of sector S. -/
def diskWrite (d : Disk) (s : Nat) (v : List Nat) : Disk :=
  fun x => if x = s then v else d x

/-- `cache_read` of a sector interpreted as an array of 128 sector
    pointers (`block_sector_t[128]`); the device always transfers a full
    sector, modelled by zero-padding to exactly 128 entries. -/
def read_table (d : Disk) (s : Nat) : List Nat := (d s).takeD 128 0

/-- `cache_read` of a sector interpreted as 512 bytes of file data. -/
def read_data (d : Disk) (s : Nat) : List Nat := (d s).takeD 512 0

/-- A sector's worth of zeros viewed as an index table
    (`static char zeros[BLOCK_SECTOR_SIZE]`, and the `memset(buffer, 0, 512)`
    table initialisations). -/
def zeros128 : List Nat := List.replicate 128 0

/-- Decoding `struct inode_disk` from a sector image: 12 direct pointers,
    then the indirect and doubly indirect pointers, then `length` and
    `magic` (each field one 32-bit word). -/
def decodeInode (l : List Nat) : InodeDisk :=
  { direct := (l.takeD 128 0).take 12
    indirect := l.getD 12 0
    indirect_double := l.getD 13 0
    length := l.getD 14 0
    magic := l.getD 15 0 }

/-- Encoding `struct inode_disk` into a sector image. -/
def encodeInode (m : InodeDisk) : List Nat :=
  m.direct ++ [m.indirect, m.indirect_double, m.length, m.magic] ++
    List.replicate 112 0

/-- State touched by the inode layer: the sector store, the free pool the
    allocator can still hand out, and a log of the `free_map_release`
    calls performed (one entry per released sector). -/
structure FsState where
  disk : Disk
  pool : List Nat
  released : List Nat

/-- Modelled from the spec: the free-space allocator's batched request
    `free_map_allocate_non_consecutive(cnt, list)` (`free-map.c` is not in
    src/).  Per §5/§6 of the spec the batch is all-or-nothing: if `cnt`
    sectors are available they are handed out (removed from the pool),
    otherwise the call fails and the allocator is unchanged.  Sector 0 is
    never in the pool (0 marks an unallocated slot). -/
def free_map_allocate_non_consecutive (cnt : Nat) (pool : List Nat) :
    Option (List Nat × List Nat) :=
  if cnt ≤ pool.length then some (pool.take cnt, pool.drop cnt) else none

/-- The allocation request `inode_resize` computes before asking the
    allocator: `(num_block_new - num_block_old) > 0 ? ... : 0` evaluated on
    `size_t` operands, so the subtraction wraps modulo 2^32. -/
def resize_request (m : InodeDisk) (size : Nat) : Nat :=
  let num_block_old := bytes_to_blocks m.length
  let num_block_new := bytes_to_blocks size
  if 0 < sub32 num_block_new num_block_old then sub32 num_block_new num_block_old
  else 0

/-- The direct-pointer loop of `inode_resize` (inode.c lines 263-274).
    `i` is the running slot index, `ni` the running index `new_list_i`
    into the freshly allocated batch `nbl`.  A slot past the new length is
    released and cleared; a zero slot now covered is assigned
    `nbl[ni]` (post-increment) and then `cache_write(zeros, nbl[i])` is
    issued — with the loop index `i`, exactly as in the source.  Reading
    `nbl` out of bounds is undefined behaviour (`.error`). -/
def direct_loop (size : Nat) (nbl : List Nat) :
    List Nat → Nat → Nat → FsState → Except Unit (List Nat × Nat × FsState)
  | [], _, ni, st => .ok ([], ni, st)
  | v :: rest, i, ni, st =>
    if size ≤ BLOCK_SECTOR_SIZE * i ∧ v ≠ 0 then
      match direct_loop size nbl rest (i + 1) ni
          { st with released := v :: st.released } with
      | .ok (rest', ni', st') => .ok (0 :: rest', ni', st')
      | .error e => .error e
    else if BLOCK_SECTOR_SIZE * i < size ∧ v = 0 then
      match nbl.get? ni, nbl.get? i with
      | some w, some z =>
        (match direct_loop size nbl rest (i + 1) (ni + 1)
            { st with disk := diskWrite st.disk z zeros128 } with
         | .ok (rest', ni', st') => .ok (w :: rest', ni', st')
         | .error e => .error e)
      | _, _ => .error ()
    else
      match direct_loop size nbl rest (i + 1) ni st with
      | .ok (rest', ni', st') => .ok (v :: rest', ni', st')
      | .error e => .error e

/-- The table-entry loop of `inode_resize`, used for the single-indirect
    table (inode.c lines 289-298, entry `i` covering data sector `12 + i`)
    and for each second-level table of the doubly indirect tree (lines
    328-337, entry `j` covering data sector `140 + i*128 + j`).  `b` is the
    absolute data-sector index covered by the current entry. -/
def indirect_loop (size : Nat) (nbl : List Nat) :
    List Nat → Nat → Nat → FsState → Except Unit (List Nat × Nat × FsState)
  | [], _, ni, st => .ok ([], ni, st)
  | v :: rest, b, ni, st =>
    if size ≤ BLOCK_SECTOR_SIZE * b ∧ v ≠ 0 then
      match indirect_loop size nbl rest (b + 1) ni
          { st with released := v :: st.released } with
      | .ok (rest', ni', st') => .ok (0 :: rest', ni', st')
      | .error e => .error e
    else if BLOCK_SECTOR_SIZE * b < size ∧ v = 0 then
      match nbl.get? ni with
      | some w =>
        (match indirect_loop size nbl rest (b + 1) (ni + 1) st with
         | .ok (rest', ni', st') => .ok (w :: rest', ni', st')
         | .error e => .error e)
      | none => .error ()
    else
      match indirect_loop size nbl rest (b + 1) ni st with
      | .ok (rest', ni', st') => .ok (v :: rest', ni', st')
      | .error e => .error e

/-- The first-level loop over the doubly indirect table (inode.c lines
    314-340).  `i` is the absolute first-level slot index.  A slot past the
    new length (condition `size <= (140 + i) * BLOCK_SECTOR_SIZE`, as in
    the source) is released and cleared; otherwise the grow branch runs
    unconditionally: the second-level table is created (from the batch) or
    read, its entries are processed by `indirect_loop` with absolute base
    `140 + i*128`, and the table is written back. -/
def double_loop (size : Nat) (nbl : List Nat) :
    List Nat → Nat → Nat → FsState → Except Unit (List Nat × Nat × FsState)
  | [], _, ni, st => .ok ([], ni, st)
  | v :: rest, i, ni, st =>
    if size ≤ BLOCK_SECTOR_SIZE * (140 + i) ∧ v ≠ 0 then
      match double_loop size nbl rest (i + 1) ni
          { st with released := v :: st.released } with
      | .ok (rest', ni', st') => .ok (0 :: rest', ni', st')
      | .error e => .error e
    else if BLOCK_SECTOR_SIZE * (140 + i) < size then
      match
        (if v = 0 then (nbl.get? ni).map (fun w => (w, zeros128, ni + 1))
         else some (v, read_table st.disk v, ni)) with
      | none => .error ()
      | some (v', buf2, ni₁) =>
        match indirect_loop size nbl buf2 (140 + i * 128) ni₁ st with
        | .error e => .error e
        | .ok (buf2', ni₂, st₂) =>
          match double_loop size nbl rest (i + 1) ni₂
              { st₂ with disk := diskWrite st₂.disk v' buf2' } with
          | .ok (rest', ni', st') => .ok (v' :: rest', ni', st')
          | .error e => .error e
    else
      match double_loop size nbl rest (i + 1) ni st with
      | .ok (rest', ni', st') => .ok (v :: rest', ni', st')
      | .error e => .error e

/-- The doubly-indirect section of `inode_resize` (inode.c lines 300-344):
    the early return when no doubly indirect pointer is needed, otherwise
    creation (from the batch) or load of the first-level table, the
    first-level loop, write-back of the table, and the successful return
    setting the length. -/
def resize_double_stage (m : InodeDisk) (size : Nat) (nbl : List Nat)
    (direct' : List Nat) (indPtr ni₃ : Nat) (st₄ : FsState) :
    Except Unit (InodeDisk × FsState × Bool) :=
  if m.indirect_double = 0 ∧ size ≤ 140 * BLOCK_SECTOR_SIZE then
    .ok ({ m with direct := direct', indirect := indPtr, length := size },
         st₄, true)
  else
    match
      (if m.indirect_double = 0 then
          (nbl.get? ni₃).map (fun w => (w, zeros128, ni₃ + 1))
       else some (m.indirect_double, read_table st₄.disk m.indirect_double, ni₃)) with
    | none => .error ()
    | some (dblPtr, buf1, ni₄) =>
      match double_loop size nbl buf1 0 ni₄ st₄ with
      | .error e => .error e
      | .ok (buf1', _, st₅) =>
        let st₆ : FsState :=
          { st₅ with disk := diskWrite st₅.disk dblPtr buf1' }
        let m' : InodeDisk :=
          { m with
            direct := direct'
            indirect := indPtr
            indirect_double := dblPtr
            length := size }
        .ok (m', st₆, true)

/-- The single-indirect section of `inode_resize` (inode.c lines 275-299):
    the early return when no indirect pointer is needed, otherwise
    creation (from the batch) or load of the table, the table loop, and
    write-back of the table before the doubly-indirect section. -/
def resize_indirect_stage (m : InodeDisk) (size : Nat) (nbl : List Nat)
    (direct' : List Nat) (ni₁ : Nat) (st₂ : FsState) :
    Except Unit (InodeDisk × FsState × Bool) :=
  if m.indirect = 0 ∧ size ≤ 12 * BLOCK_SECTOR_SIZE then
    .ok ({ m with direct := direct', length := size }, st₂, true)
  else
    match
      (if m.indirect = 0 then (nbl.get? ni₁).map (fun w => (w, zeros128, ni₁ + 1))
       else some (m.indirect, read_table st₂.disk m.indirect, ni₁)) with
    | none => .error ()
    | some (indPtr, buf, ni₂) =>
      match indirect_loop size nbl buf 12 ni₂ st₂ with
      | .error e => .error e
      | .ok (buf', ni₃, st₃) =>
        resize_double_stage m size nbl direct' indPtr ni₃
          { st₃ with disk := diskWrite st₃.disk indPtr buf' }

/-- `inode_resize` from inode.c (lines 248-344): computes the block-count
    delta, asks the allocator once up front, and on success walks the
    direct pointers, then the single-indirect and doubly-indirect
    sections, releasing uncovered slots and assigning fresh sectors to
    newly covered ones, with the early returns of the source.  Returns the
    updated metadata, the updated state and the C function's boolean. -/
def inode_resize (m : InodeDisk) (size : Nat) (st : FsState) :
    Except Unit (InodeDisk × FsState × Bool) :=
  match free_map_allocate_non_consecutive (resize_request m size) st.pool with
  | none => .ok (m, st, false)
  | some (nbl, pool') =>
    match direct_loop size nbl m.direct 0 0 { st with pool := pool' } with
    | .error e => .error e
    | .ok (direct', ni₁, st₂) => resize_indirect_stage m size nbl direct' ni₁ st₂

/-- `byte_to_sector` from inode.c (lines 207-232): reads the inode
    metadata from `sector`, computes `sector_num = bytes_to_sectors(pos)`
    (a byte *length*, not a zero-based sector index) and indexes the
    direct array with `sector_num - 1`, the single-indirect table with
    `sector_num - 12 - 1`, or the two levels of the doubly indirect tree
    with `(sector_num - 140) / 128` and `(sector_num - 140) % 128 - 1`.
    The subtractions are `size_t` subtractions, so they wrap; a wrapped or
    oversized index is an out-of-bounds array access (`none`). -/
def byte_to_sector (d : Disk) (sector : Nat) (pos : Nat) : Option Nat :=
  let m := decodeInode (read_table d sector)
  let sector_num := bytes_to_sectors pos
  if sector_num ≤ 12 then
    m.direct.get? (sub32 sector_num 1)
  else if sector_num ≤ 140 then
    (read_table d m.indirect).get? (sub32 (sector_num - 12) 1)
  else
    match (read_table d m.indirect_double).get? ((sector_num - 140) / 128) with
    | none => none
    | some t2 => (read_table d t2).get? (sub32 ((sector_num - 140) % 128) 1)

/-- In-memory inode handle (`struct inode`; locks and list linkage are not
    part of the sequential model). -/
structure Inode where
  sector : Nat
  open_cnt : Nat
  removed : Bool
  deny_write_cnt : Nat
deriving Repr, DecidableEq

/-- `inode_length` from inode.c: reads the metadata sector and returns its
    length field. -/
def inode_length (d : Disk) (ind : Inode) : Nat :=
  (decodeInode (read_table d ind.sector)).length

/-- The per-sector copy loop of `inode_write_at` (inode.c lines 527-568).
    Each iteration translates the current offset, computes
    `chunk_size = min(size, inode_left, sector_left)` and stops when it is
    not positive (with non-negative offsets that is exactly
    `inode_length ≤ offset`); a full aligned sector is written directly,
    otherwise the sector is read, partially overwritten and written back
    (the bounce buffer). -/
def write_loop (ind : Inode) (buffer : List Nat) (size offset bytes_written : Nat)
    (st : FsState) : Except Unit (Nat × FsState) :=
  if hsz : size = 0 then .ok (bytes_written, st)
  else
    match byte_to_sector st.disk ind.sector offset with
    | none => .error ()
    | some sector_idx =>
      let sector_ofs := offset % BLOCK_SECTOR_SIZE
      let len := inode_length st.disk ind
      if hlen : len ≤ offset then .ok (bytes_written, st)
      else
        let chunk := min size (min (len - offset) (BLOCK_SECTOR_SIZE - sector_ofs))
        let sec := read_data st.disk sector_idx
        let piece := (buffer.drop bytes_written).takeD chunk 0
        let newsec :=
          if sector_ofs = 0 ∧ chunk = BLOCK_SECTOR_SIZE then
            (buffer.drop bytes_written).takeD BLOCK_SECTOR_SIZE 0
          else if 0 < sector_ofs ∨ chunk < BLOCK_SECTOR_SIZE - sector_ofs then
            sec.take sector_ofs ++ piece ++ sec.drop (sector_ofs + chunk)
          else
            let zs := List.replicate BLOCK_SECTOR_SIZE 0
            zs.take sector_ofs ++ piece ++ zs.drop (sector_ofs + chunk)
        write_loop ind buffer (size - chunk) (offset + chunk) (bytes_written + chunk)
          { st with disk := diskWrite st.disk sector_idx newsec }
  termination_by size
  decreasing_by
    have hofs : offset % BLOCK_SECTOR_SIZE < BLOCK_SECTOR_SIZE :=
      Nat.mod_lt _ (by simp [BLOCK_SECTOR_SIZE])
    simp only [BLOCK_SECTOR_SIZE] at hofs ⊢
    omega

/-- `inode_write_at` from inode.c (lines 510-572): refuses the write when
    the deny-write count is non-zero (zero bytes, nothing mutated); else
    reads the metadata, grows via `inode_resize` when the write ends past
    the current length (the boolean result of resize is ignored and the
    resized metadata is never written back, as in the source), then runs
    the per-sector loop. -/
def inode_write_at (ind : Inode) (buffer : List Nat) (size offset : Nat)
    (st : FsState) : Except Unit (Nat × FsState) :=
  if ind.deny_write_cnt ≠ 0 then .ok (0, st)
  else
    let ind_d := decodeInode (read_table st.disk ind.sector)
    let new_length := size + offset
    if ind_d.length < new_length then
      match inode_resize ind_d new_length st with
      | .error e => .error e
      | .ok (_, st', _) => write_loop ind buffer size offset 0 st'
    else
      write_loop ind buffer size offset 0 st

/-- The per-sector copy loop of `inode_read_at` (inode.c lines 465-499),
    accumulating the bytes copied to the caller's buffer. -/
def read_loop (ind : Inode) (size offset : Nat) (acc : List Nat) (st : FsState) :
    Except Unit (List Nat) :=
  if hsz : size = 0 then .ok acc
  else
    match byte_to_sector st.disk ind.sector offset with
    | none => .error ()
    | some sector_idx =>
      let sector_ofs := offset % BLOCK_SECTOR_SIZE
      let len := inode_length st.disk ind
      if hlen : len ≤ offset then .ok acc
      else
        let chunk := min size (min (len - offset) (BLOCK_SECTOR_SIZE - sector_ofs))
        let sec := read_data st.disk sector_idx
        read_loop ind (size - chunk) (offset + chunk)
          (acc ++ (sec.drop sector_ofs).take chunk) st
  termination_by size
  decreasing_by
    have hofs : offset % BLOCK_SECTOR_SIZE < BLOCK_SECTOR_SIZE :=
      Nat.mod_lt _ (by simp [BLOCK_SECTOR_SIZE])
    simp only [BLOCK_SECTOR_SIZE] at hofs ⊢
    omega

/-- `inode_read_at` from inode.c (lines 460-503): the per-sector read loop
    starting from an empty output. -/
def inode_read_at (ind : Inode) (size offset : Nat) (st : FsState) :
    Except Unit (List Nat) :=
  read_loop ind size offset [] st

/-- Modelled from the spec (§4.2 `translate`): the intended zero-based
    translation — offsets in the first 12 sectors' worth come from
    `direct[pos / sector_size]`, the next 128 sectors' worth from the
    single-indirect table at `(pos / sector_size) - 12`, and beyond that
    from the doubly indirect tree with outer index
    `((pos / sector_size) - 140) / 128` and inner index
    `((pos / sector_size) - 140) % 128`. -/
def translate_spec (d : Disk) (sector : Nat) (pos : Nat) : Option Nat :=
  let m := decodeInode (read_table d sector)
  let s := pos / BLOCK_SECTOR_SIZE
  if s < 12 then
    m.direct.get? s
  else if s < 140 then
    (read_table d m.indirect).get? (s - 12)
  else
    match (read_table d m.indirect_double).get? ((s - 140) / 128) with
    | none => none
    | some t2 => (read_table d t2).get? ((s - 140) % 128)

/-- Modelled from the spec (§4.2 `block_count`): `data_sectors + 1` when at
    most 12 data sectors, `data_sectors + 2` when at most 140, otherwise
    `data_sectors + 3 + ceil((data_sectors - 140) / 128)`. -/
def block_count_spec (size : Nat) : Nat :=
  let data := bytes_to_sectors size
  if data ≤ 12 then data + 1
  else if data ≤ 140 then data + 2
  else data + 3 + (data - 140 + 127) / 128

/-! Concrete inputs used to evaluate the embedded code. -/

/-- A 1,000,000-byte inode's metadata: 12 direct sectors `100..111`, the
    single-indirect table at sector 200, the doubly indirect table at
    sector 300. -/
def exMeta : InodeDisk :=
  ⟨(List.range 12).map (fun k => 100 + k), 200, 300, 1000000, 1234⟩

/-- A store holding `exMeta` at sector 9, the single-indirect table
    (entries `1000..1127`) at sector 200, the doubly indirect table
    (entries `2000..2127`) at sector 300 and second-level tables (entries
    `3000 + 128k + j`) at sectors `2000 + k`. -/
def exDisk : Disk := fun s =>
  if s = 200 then (List.range 128).map (fun k => 1000 + k)
  else if s = 300 then (List.range 128).map (fun k => 2000 + k)
  else if 2000 ≤ s ∧ s < 2128 then
    (List.range 128).map (fun k => 3000 + 128 * (s - 2000) + k)
  else if s = 9 then encodeInode exMeta
  else []

/-- A 150-sector (76,800-byte) inode's metadata. -/
def shrink150_m : InodeDisk :=
  ⟨(List.range 12).map (fun k => 100 + k), 200, 300, 76800, 1234⟩

/-- A 200-sector (102,400-byte) inode's metadata. -/
def shrink200_m : InodeDisk :=
  ⟨(List.range 12).map (fun k => 100 + k), 200, 300, 102400, 1234⟩

/-- A state with three free sectors, used for the shrink evaluations. -/
def shrink_st : FsState := { disk := exDisk, pool := [50, 51, 52], released := [] }

/-- A one-sector (512-byte) inode's metadata: only `direct[0]` allocated. -/
def grow2_m : InodeDisk := ⟨5 :: List.replicate 11 0, 0, 0, 512, 1234⟩

/-- A state with three free sectors, used for the grow evaluation. -/
def grow2_st : FsState := { disk := fun _ => [], pool := [7, 8, 9], released := [] }

/-- An open handle on the 512-byte inode stored at sector 2. -/
def w4_ind : Inode := ⟨2, 1, false, 0⟩

/-- A store holding a 512-byte inode's metadata (data in sector 5) at
    sector 2, and 512 bytes of data at sector 5. -/
def w4_st : FsState :=
  { disk := fun s =>
      if s = 2 then encodeInode ⟨5 :: List.replicate 11 0, 0, 0, 512, 1234⟩
      else if s = 5 then List.replicate 512 42
      else []
    pool := []
    released := [] }

/-! The buffer cache (inode.c lines 52-150). -/

/-- One cache slot (`struct cache_block`; the read/write lock and list
    linkage are not part of the sequential model). -/
structure cache_block where
  content : List Nat
  is_dirty : Bool
  is_valid : Bool
  bst : Nat
  hit_cnt : Nat
  miss_cnt : Nat
deriving Repr, DecidableEq

/-- `new_cache_block`: a `calloc`-zeroed slot, invalid and clean. -/
def new_cache_block : cache_block :=
  { content := List.replicate 128 0
    is_dirty := false
    is_valid := false
    bst := 0
    hit_cnt := 0
    miss_cnt := 0 }

/-- `cache_init`: 64 fresh slots (most-recently-used at the head). -/
def cache_init : List cache_block := List.replicate 64 new_cache_block

/-- `find_block_and_acq_lock` (inode.c lines 110-150) acting on the cache
    list and the backing device: the first valid slot matching `bst` is a
    hit (promoted to the head, hit counter bumped); otherwise the tail slot
    is the eviction victim — written back if valid and dirty, refilled from
    the device for `bst`, marked valid and clean, moved to the head, miss
    counter bumped.  On an empty cache list the C loop would leave `b`
    uninitialized (undefined behaviour), hence `none`. -/
def find_block_and_acq_lock (c : List cache_block) (bst : Nat) (d : Disk) :
    Option (List cache_block × Disk) :=
  match c.findIdx? (fun b => b.is_valid && b.bst == bst) with
  | some i =>
    match c.get? i with
    | some b => some ({ b with hit_cnt := b.hit_cnt + 1 } :: c.eraseIdx i, d)
    | none => none
  | none =>
    match c.getLast? with
    | none => none
    | some b =>
      let d₁ := if b.is_valid && b.is_dirty then diskWrite d b.bst b.content else d
      some ({ content := read_table d₁ bst
              is_dirty := false
              is_valid := true
              bst := bst
              hit_cnt := b.hit_cnt
              miss_cnt := b.miss_cnt + 1 } :: c.dropLast, d₁)

/-- The uniqueness invariant of the cache directory: for every sector
    number `s`, at most one slot is valid for `s`. -/
def cache_unique (c : List cache_block) : Prop :=
  ∀ s : Nat, c.countP (fun b => b.is_valid && b.bst == s) ≤ 1

/-- A trivial backing device for the cache evaluations. -/
def dev0 : Disk := fun _ => []

/-- The cache directory after one miss on sector 3 from a fresh cache:
    the refilled victim at the head, 63 untouched slots behind it. -/
def c9_after : List cache_block :=
  { content := List.replicate 128 0
    is_dirty := false
    is_valid := true
    bst := 3
    hit_cnt := 0
    miss_cnt := 1 } :: List.replicate 63 new_cache_block

/-! Normalization predicates used to reason about `inode_resize`. -/

/-- Slots `vs` are reconciled with byte length `size`, the slot at offset
    `j` covering data sector `b + j`: a slot past the length is clear, a
    covered slot is allocated.  This is exactly the condition under which
    neither branch of the resize loops fires. -/
def SlotsNorm (vs : List Nat) (b size : Nat) : Prop :=
  ∀ j, j < vs.length →
    (size ≤ BLOCK_SECTOR_SIZE * (b + j) → vs.getD j 0 = 0) ∧
    (BLOCK_SECTOR_SIZE * (b + j) < size → vs.getD j 0 ≠ 0)

/-- Metadata and store fully reconciled with byte length `size`, following
    the control flow of `inode_resize`: the direct slots are normalized;
    if the single-indirect section would run, its table exists, is a full
    sector and is normalized; if the doubly indirect section would run, its
    first-level table exists, is a full sector, is normalized against the
    source's `140 + i` coverage condition, and every covered first-level
    slot points to a full, normalized second-level table. -/
def Normalized (m : InodeDisk) (st : FsState) (size : Nat) : Prop :=
  m.length = size ∧
  SlotsNorm m.direct 0 size ∧
  (¬(m.indirect = 0 ∧ size ≤ 12 * BLOCK_SECTOR_SIZE) →
    m.indirect ≠ 0 ∧ (st.disk m.indirect).length = 128 ∧
    SlotsNorm (st.disk m.indirect) 12 size ∧
    (¬(m.indirect_double = 0 ∧ size ≤ 140 * BLOCK_SECTOR_SIZE) →
      m.indirect_double ≠ 0 ∧ (st.disk m.indirect_double).length = 128 ∧
      SlotsNorm (st.disk m.indirect_double) 140 size ∧
      ∀ j, j < 128 → BLOCK_SECTOR_SIZE * (140 + j) < size →
        (st.disk m.indirect_double).getD j 0 ≠ 0 ∧
        (st.disk ((st.disk m.indirect_double).getD j 0)).length = 128 ∧
        SlotsNorm (st.disk ((st.disk m.indirect_double).getD j 0))
          (140 + j * 128) size))

/-- Well-formedness of a resize input, from the data model (§3) and the
    allocator contract (§6): the free pool holds distinct, non-zero
    sectors none of which is already referenced as an index sector; the
    direct array has its 12 slots; distinct index roles use distinct
    sectors. -/
def ResizeWF (m : InodeDisk) (st : FsState) : Prop :=
  st.pool.Nodup ∧
  (∀ s ∈ st.pool, s ≠ 0) ∧
  m.direct.length = 12 ∧
  m.indirect ∉ st.pool ∧
  m.indirect_double ∉ st.pool ∧
  (m.indirect ≠ 0 → m.indirect_double ≠ 0 → m.indirect ≠ m.indirect_double) ∧
  (m.indirect_double ≠ 0 →
    (read_table st.disk m.indirect_double).Pairwise
      (fun a b => a ≠ 0 → b ≠ 0 → a ≠ b) ∧
    ∀ v ∈ read_table st.disk m.indirect_double, v ≠ 0 →
      v ∉ st.pool ∧ v ≠ m.indirect ∧ v ≠ m.indirect_double)

/-- Metadata and state used by the idempotence witness. -/
def idem_m : InodeDisk := ⟨List.replicate 12 0, 0, 0, 0, 1234⟩

/-- State used by the idempotence witness. -/
def idem_st : FsState := { disk := fun _ => [], pool := [5, 6], released := [] }

/-- The metadata produced by growing `idem_m` to 512 bytes. -/
def idem_m' : InodeDisk := ⟨5 :: List.replicate 11 0, 0, 0, 512, 1234⟩

/-- The state produced by growing `idem_m` to 512 bytes: sector 5 was
    taken from the pool and zero-filled. -/
def idem_st' : FsState :=
  { disk := diskWrite (fun _ => []) 5 zeros128, pool := [6], released := [] }

/-! Theorems. -/

/-- C1: at the 140th-sector boundary (byte offset 140 · 512 = 71680,
    within a 1,000,000-byte file) the source's `byte_to_sector` computes
    `bytes_to_sectors(71680) = 140 ≤ 140` and answers from the
    single-indirect table (its entry 127, here 1127), whereas the claimed
    zero-based translation resolves this offset through the doubly
    indirect path (outer index 0, inner index 0, here 3000). -/
theorem c1_byte_to_sector_boundary :
    byte_to_sector exDisk 9 71680 = some 1127 ∧
    translate_spec exDisk 9 71680 = some 3000 ∧
    byte_to_sector exDisk 9 71680 ≠ translate_spec exDisk 9 71680 := by
  refine ⟨rfl, rfl, ?_⟩
  intro h
  rw [show byte_to_sector exDisk 9 71680 = some 1127 from rfl,
      show translate_spec exDisk 9 71680 = some 3000 from rfl] at h
  simp at h

/-- C2: shrinking a 150-sector file to 10 sectors makes `inode_resize`
    request `(11 - 153) mod 2^32 = 4294967154` sectors from the allocator
    — the `size_t` subtraction wraps, so the request is not the positive
    delta of newly needed sectors (which is 0).  The failure half of the
    claim does hold on this input: the allocator cannot satisfy the
    request, resize returns false, and metadata, store, pool and release
    log are all returned unchanged. -/
theorem c2_resize_alloc_request_underflow :
    resize_request shrink150_m 5120 = 4294967154 ∧
    inode_resize shrink150_m 5120 shrink_st = .ok (shrink150_m, shrink_st, false) := by
  exact ⟨rfl, rfl⟩

/-- C3: shrinking a 200-sector file to 10 sectors fails instead of
    releasing the sectors beyond the 10th: the block-count delta
    `11 - 203` wraps to 4294967104 on `size_t`, the allocator cannot
    satisfy it, and `inode_resize` returns false with every pointer slot
    intact and nothing released. -/
theorem c3_shrink_fails_releases_nothing :
    resize_request shrink200_m 5120 = 4294967104 ∧
    inode_resize shrink200_m 5120 shrink_st = .ok (shrink200_m, shrink_st, false) := by
  exact ⟨rfl, rfl⟩

/-- C4: writing 512 bytes at offset 0 of a 512-byte inode — the first step
    of any round-trip over `[0, L)` — is undefined behaviour: the very
    first translation computes direct index
    `bytes_to_sectors(0) - 1 = -1` on `size_t` (the C code reads
    `direct[-1]`), so byte 0 is never mapped to a valid data sector; the
    read of offset 0 fails the same way, and no byte pattern can
    round-trip through offset 0. -/
theorem c4_write_at_offset_zero_out_of_bounds :
    inode_write_at w4_ind (List.replicate 512 7) 512 0 w4_st = .error () ∧
    inode_read_at w4_ind 512 0 w4_st = .error () := by
  constructor
  · have h0 : byte_to_sector w4_st.disk w4_ind.sector 0 = none := rfl
    show write_loop w4_ind (List.replicate 512 7) 512 0 0 w4_st = .error ()
    rw [write_loop]
    simp [h0]
  · have h0 : byte_to_sector w4_st.disk w4_ind.sector 0 = none := rfl
    show read_loop w4_ind 512 0 [] w4_st = .error ()
    rw [read_loop]
    simp [h0]

/-- C5: growing a 512-byte inode (direct[0] already allocated) to 1024
    bytes is undefined behaviour instead of a zero-filled grow: the batch
    holds exactly one sector, slot 1 is assigned `new_block_list[0]`, but
    the zero-fill then reads `new_block_list[i]` with the loop index
    `i = 1` — past the end of the one-entry batch — so the newly assigned
    sector is never zero-filled. -/
theorem c5_grow_zero_fill_out_of_bounds :
    resize_request grow2_m 1024 = 1 ∧
    inode_resize grow2_m 1024 grow2_st = .error () := by
  exact ⟨rfl, rfl⟩

/-- C6: for 72,192 bytes (141 data sectors) the source's
    `bytes_to_blocks` floors the second-level-table count,
    `141 + (141-140)/128 + 3 = 144`, while the claimed formula with the
    ceiling counts the second-level index sector that 141 data sectors
    actually need: `141 + 3 + ceil(1/128) = 145`. -/
theorem c6_bytes_to_blocks_undercounts :
    bytes_to_blocks 72192 = 144 ∧ block_count_spec 72192 = 145 := by
  exact ⟨rfl, rfl⟩

/-- C7: a write on a handle whose deny-write count is positive transfers
    zero bytes and leaves the state (store, pool, release log) completely
    unchanged — the check precedes every read, resize and copy. -/
theorem c7_write_denied (ind : Inode) (buffer : List Nat) (size offset : Nat)
    (st : FsState) (h : 0 < ind.deny_write_cnt) :
    inode_write_at ind buffer size offset st = .ok (0, st) := by
  unfold inode_write_at
  rw [if_pos (Nat.pos_iff_ne_zero.mp h)]

/-- C7 witness: a handle with deny-write count 1 at concrete arguments. -/
theorem c7_write_denied_witness :
    0 < (Inode.mk 2 1 false 1).deny_write_cnt ∧
    inode_write_at (Inode.mk 2 1 false 1) (List.replicate 8 3) 8 0 w4_st =
      .ok (0, w4_st) :=
  ⟨by decide, c7_write_denied (Inode.mk 2 1 false 1) (List.replicate 8 3) 8 0 w4_st (by decide)⟩

/-- C10: two in-length offsets of a 1,000,000-byte inode on which
    `byte_to_sector`'s array indices leave their bounds: at `pos = 0` the
    direct index `bytes_to_sectors(0) - 1` wraps to 2^32 - 1 (the C code
    reads `direct[-1]`), and at `pos = 137216` (zero-based sector 268,
    `sector_num - 140 = 128`) the inner doubly-indirect index
    `128 % 128 - 1` wraps the same way. -/
theorem c10_byte_to_sector_oob :
    byte_to_sector exDisk 9 0 = none ∧
    byte_to_sector exDisk 9 137216 = none := by
  exact ⟨rfl, rfl⟩

/-- Counting with `p` splits off any element reachable by index. -/
lemma countP_eq_countP_eraseIdx_add {α : Type} (p : α → Bool) (l : List α)
    (i : Nat) (b : α) (h : l.get? i = some b) :
    l.countP p = (l.eraseIdx i).countP p + if p b then 1 else 0 := by
  induction l generalizing i with
  | nil => simp at h
  | cons a t ih =>
    cases i with
    | zero =>
      simp at h
      subst h
      simp [List.countP_cons, Nat.add_comm]
    | succ n =>
      simp only [List.get?_cons_succ] at h
      simp [List.countP_cons, ih n h]
      omega

/-- C9: the cache directory's uniqueness invariant — for every sector
    number, at most one slot is simultaneously valid and mapped to it —
    holds of the freshly initialized cache and is preserved by every
    lookup (`find_block_and_acq_lock`), covering hit promotion as well as
    miss eviction and refill. -/
theorem c9_cache_unique_invariant :
    cache_unique cache_init ∧
    ∀ (c : List cache_block) (bst : Nat) (d : Disk) (c' : List cache_block)
      (d' : Disk), cache_unique c →
      find_block_and_acq_lock c bst d = some (c', d') → cache_unique c' := by
  constructor
  · intro s
    have h0 : (cache_init.countP (fun b => b.is_valid && b.bst == s)) = 0 := by
      refine List.countP_eq_zero.mpr ?_
      intro a ha
      have : a = new_cache_block := List.eq_of_mem_replicate ha
      subst this
      simp [new_cache_block]
    omega
  · intro c bst d c' d' hu hf
    unfold find_block_and_acq_lock at hf
    cases hfind : c.findIdx? (fun b => b.is_valid && b.bst == bst) with
    | some i =>
      simp only [hfind] at hf
      cases hget : c.get? i with
      | none =>
        simp only [hget] at hf
        exact Option.noConfusion hf
      | some b =>
        simp only [hget, Option.some.injEq, Prod.mk.injEq] at hf
        obtain ⟨hc', _⟩ := hf
        subst hc'
        intro s
        have hsplit := countP_eq_countP_eraseIdx_add
          (fun bb : cache_block => bb.is_valid && bb.bst == s) c i b hget
        simp only [] at hsplit
        rw [List.countP_cons]
        show (c.eraseIdx i).countP (fun bb => bb.is_valid && bb.bst == s) +
          (if (b.is_valid && b.bst == s) = true then 1 else 0) ≤ 1
        have hc := hu s
        omega
    | none =>
      simp only [hfind] at hf
      cases hlast : c.getLast? with
      | none =>
        simp only [hlast] at hf
        exact Option.noConfusion hf
      | some b =>
        simp only [hlast, Option.some.injEq, Prod.mk.injEq] at hf
        obtain ⟨hc', _⟩ := hf
        subst hc'
        intro s
        rw [List.countP_cons]
        have hnone := List.findIdx?_eq_none_iff.mp hfind
        by_cases hs : bst = s
        · subst hs
          have hzero :
              (c.dropLast.countP (fun bb => bb.is_valid && bb.bst == bst)) = 0 := by
            refine List.countP_eq_zero.mpr ?_
            intro a ha
            have hac : a ∈ c := (List.dropLast_sublist c).subset ha
            simpa using hnone a hac
          simp [hzero]
        · have h1 : (c.dropLast.countP (fun bb => bb.is_valid && bb.bst == s)) ≤
              (c.countP (fun bb => bb.is_valid && bb.bst == s)) :=
            (List.dropLast_sublist c).countP_le _
          have hbeq : (bst == s) = false := by
            simp [hs]
          simp only [hbeq, Bool.and_false]
          have := hu s
          simp only [Bool.false_eq_true, if_false]
          omega

/-- C9 witness: one miss on sector 3 from the freshly initialized cache;
    the resulting directory still satisfies the invariant. -/
theorem c9_cache_unique_invariant_witness :
    find_block_and_acq_lock cache_init 3 dev0 = some (c9_after, dev0) ∧
    cache_unique c9_after := by
  have h : find_block_and_acq_lock cache_init 3 dev0 = some (c9_after, dev0) := rfl
  exact ⟨h, c9_cache_unique_invariant.2 cache_init 3 dev0 c9_after dev0
    c9_cache_unique_invariant.1 h⟩

/-- A fixed-size read of a full sector returns it unchanged. -/
lemma takeD_128_eq_self {l : List Nat} (h : l.length = 128) : l.takeD 128 0 = l := by
  rw [List.takeD_eq_take _ (by omega), ← h, List.take_length]

/-- `read_table` of a full sector returns it unchanged. -/
lemma read_table_eq_self {d : Disk} {s : Nat} (h : (d s).length = 128) :
    read_table d s = d s := takeD_128_eq_self h

/-- Rewriting a sector with its own contents does not change the store. -/
lemma diskWrite_self (d : Disk) (s : Nat) : diskWrite d s (d s) = d := by
  funext x
  unfold diskWrite
  split
  · rename_i hx
    rw [hx]
  · rfl

/-- Reading back the sector just written. -/
lemma diskWrite_at (d : Disk) (s : Nat) (v : List Nat) : diskWrite d s v s = v := by
  simp [diskWrite]

/-- Reading any other sector after a write. -/
lemma diskWrite_ne (d : Disk) (s : Nat) (v : List Nat) {x : Nat} (h : x ≠ s) :
    diskWrite d s v x = d x := by
  simp [diskWrite, h]

/-- `SlotsNorm` for the empty slot list. -/
lemma slotsNorm_nil (b size : Nat) : SlotsNorm [] b size := by
  intro j hj
  simp at hj

/-- `SlotsNorm` decomposed at a cons. -/
lemma slotsNorm_cons_iff {v : Nat} {rest : List Nat} {b size : Nat} :
    SlotsNorm (v :: rest) b size ↔
    ((size ≤ BLOCK_SECTOR_SIZE * b → v = 0) ∧
     (BLOCK_SECTOR_SIZE * b < size → v ≠ 0)) ∧
    SlotsNorm rest (b + 1) size := by
  constructor
  · intro h
    refine ⟨?_, ?_⟩
    · have h0 := h 0 (by simp)
      simpa using h0
    · intro j hj
      have hj1 := h (j + 1) (by simp; omega)
      have harith : b + (j + 1) = b + 1 + j := by omega
      simpa [harith] using hj1
  · rintro ⟨hhead, htail⟩ j hj
    cases j with
    | zero => simpa using hhead
    | succ n =>
      have harith : b + (n + 1) = b + 1 + n := by omega
      have := htail n (by simpa using hj)
      simpa [harith] using this

/-- What one run of the direct-pointer loop guarantees: slot count and
    pool preserved, batch index monotone, resulting slots normalized, and
    store changes confined to batch sectors. -/
lemma direct_loop_post {size : Nat} {nbl : List Nat}
    (hnz : ∀ w ∈ nbl, w ≠ 0) :
    ∀ (vs : List Nat) (i ni : Nat) (st : FsState) (vs' : List Nat)
      (ni' : Nat) (st' : FsState),
    direct_loop size nbl vs i ni st = .ok (vs', ni', st') →
    vs'.length = vs.length ∧ ni ≤ ni' ∧ st'.pool = st.pool ∧
    SlotsNorm vs' i size ∧ (∀ s, st'.disk s ≠ st.disk s → s ∈ nbl) := by
  intro vs
  induction vs with
  | nil =>
    intro i ni st vs' ni' st' h
    unfold direct_loop at h
    simp only [Except.ok.injEq, Prod.mk.injEq] at h
    obtain ⟨h1, h2, h3⟩ := h
    subst h1; subst h2; subst h3
    exact ⟨rfl, le_refl _, rfl, slotsNorm_nil _ _, fun s hs => absurd rfl hs⟩
  | cons v rest ih =>
    intro i ni st vs' ni' st' h
    unfold direct_loop at h
    by_cases hc1 : size ≤ BLOCK_SECTOR_SIZE * i ∧ v ≠ 0
    · rw [if_pos hc1] at h
      cases hrec : direct_loop size nbl rest (i + 1) ni
          { st with released := v :: st.released } with
      | error e => rw [hrec] at h; exact absurd h (by simp)
      | ok t =>
        obtain ⟨rest', ni'', st''⟩ := t
        rw [hrec] at h
        simp only [Except.ok.injEq, Prod.mk.injEq] at h
        obtain ⟨h1, h2, h3⟩ := h
        subst h1; subst h2; subst h3
        obtain ⟨l1, l2, l3, l4, l5⟩ := ih _ _ _ _ _ _ hrec
        refine ⟨by simp [l1], l2, l3, ?_, l5⟩
        refine slotsNorm_cons_iff.mpr ⟨⟨fun _ => rfl, fun hlt => absurd hlt (by omega)⟩, l4⟩
    · rw [if_neg hc1] at h
      by_cases hc2 : BLOCK_SECTOR_SIZE * i < size ∧ v = 0
      · rw [if_pos hc2] at h
        cases hw : nbl.get? ni with
        | none => cases hz : nbl.get? i <;> simp only [hw, hz] at h <;>
            exact absurd h (by simp)
        | some w =>
          cases hz : nbl.get? i with
          | none =>
            simp only [hw, hz] at h
            exact absurd h (by simp)
          | some z =>
            simp only [hw, hz] at h
            cases hrec : direct_loop size nbl rest (i + 1) (ni + 1)
                { st with disk := diskWrite st.disk z zeros128 } with
            | error e => rw [hrec] at h; exact absurd h (by simp)
            | ok t =>
              obtain ⟨rest', ni'', st''⟩ := t
              rw [hrec] at h
              simp only [Except.ok.injEq, Prod.mk.injEq] at h
              obtain ⟨h1, h2, h3⟩ := h
              subst h1; subst h2; subst h3
              obtain ⟨l1, l2, l3, l4, l5⟩ := ih _ _ _ _ _ _ hrec
              refine ⟨by simp [l1], by omega, l3, ?_, ?_⟩
              · refine slotsNorm_cons_iff.mpr
                  ⟨⟨fun hle => absurd hle (by omega),
                    fun _ => hnz w (List.get?_mem hw)⟩, l4⟩
              · intro s hs
                by_cases hsz : st''.disk s = diskWrite st.disk z zeros128 s
                · rw [hsz] at hs
                  by_cases hzs : s = z
                  · exact hzs ▸ List.get?_mem hz
                  · exact absurd (diskWrite_ne _ _ _ hzs) hs
                · exact l5 s hsz
      · rw [if_neg hc2] at h
        cases hrec : direct_loop size nbl rest (i + 1) ni st with
        | error e => rw [hrec] at h; exact absurd h (by simp)
        | ok t =>
          obtain ⟨rest', ni'', st''⟩ := t
          rw [hrec] at h
          simp only [Except.ok.injEq, Prod.mk.injEq] at h
          obtain ⟨h1, h2, h3⟩ := h
          subst h1; subst h2; subst h3
          obtain ⟨l1, l2, l3, l4, l5⟩ := ih _ _ _ _ _ _ hrec
          refine ⟨by simp [l1], l2, l3, ?_, l5⟩
          refine slotsNorm_cons_iff.mpr
            ⟨⟨fun hle => by by_contra hv; exact hc1 ⟨hle, hv⟩,
              fun hlt => by intro hv; exact hc2 ⟨hlt, hv⟩⟩, l4⟩

/-- On normalized slots the direct-pointer loop does nothing. -/
lemma direct_loop_noop {size : Nat} (nbl : List Nat) :
    ∀ (vs : List Nat) (i ni : Nat) (st : FsState), SlotsNorm vs i size →
    direct_loop size nbl vs i ni st = .ok (vs, ni, st) := by
  intro vs
  induction vs with
  | nil => intro i ni st _; rfl
  | cons v rest ih =>
    intro i ni st hnorm
    obtain ⟨⟨hz, hnzv⟩, htail⟩ := slotsNorm_cons_iff.mp hnorm
    unfold direct_loop
    rw [if_neg, if_neg]
    · rw [ih (i + 1) ni st htail]
    · rintro ⟨hlt, hv0⟩
      exact hnzv hlt hv0
    · rintro ⟨hle, hvne⟩
      exact hvne (hz hle)

/-- What one run of the table-entry loop guarantees: entry count, pool and
    store preserved (the loop never writes a sector), batch index
    monotone, resulting entries normalized for their base. -/
lemma indirect_loop_post {size : Nat} {nbl : List Nat}
    (hnz : ∀ w ∈ nbl, w ≠ 0) :
    ∀ (vs : List Nat) (b ni : Nat) (st : FsState) (vs' : List Nat)
      (ni' : Nat) (st' : FsState),
    indirect_loop size nbl vs b ni st = .ok (vs', ni', st') →
    vs'.length = vs.length ∧ ni ≤ ni' ∧ st'.pool = st.pool ∧
    st'.disk = st.disk ∧ SlotsNorm vs' b size := by
  intro vs
  induction vs with
  | nil =>
    intro b ni st vs' ni' st' h
    unfold indirect_loop at h
    simp only [Except.ok.injEq, Prod.mk.injEq] at h
    obtain ⟨h1, h2, h3⟩ := h
    subst h1; subst h2; subst h3
    exact ⟨rfl, le_refl _, rfl, rfl, slotsNorm_nil _ _⟩
  | cons v rest ih =>
    intro b ni st vs' ni' st' h
    unfold indirect_loop at h
    by_cases hc1 : size ≤ BLOCK_SECTOR_SIZE * b ∧ v ≠ 0
    · rw [if_pos hc1] at h
      cases hrec : indirect_loop size nbl rest (b + 1) ni
          { st with released := v :: st.released } with
      | error e => rw [hrec] at h; exact absurd h (by simp)
      | ok t =>
        obtain ⟨rest', ni'', st''⟩ := t
        rw [hrec] at h
        simp only [Except.ok.injEq, Prod.mk.injEq] at h
        obtain ⟨h1, h2, h3⟩ := h
        subst h1; subst h2; subst h3
        obtain ⟨l1, l2, l3, l4, l5⟩ := ih _ _ _ _ _ _ hrec
        refine ⟨by simp [l1], l2, l3, l4, ?_⟩
        refine slotsNorm_cons_iff.mpr ⟨⟨fun _ => rfl, fun hlt => absurd hlt (by omega)⟩, l5⟩
    · rw [if_neg hc1] at h
      by_cases hc2 : BLOCK_SECTOR_SIZE * b < size ∧ v = 0
      · rw [if_pos hc2] at h
        cases hw : nbl.get? ni with
        | none =>
          simp only [hw] at h
          exact absurd h (by simp)
        | some w =>
          simp only [hw] at h
          cases hrec : indirect_loop size nbl rest (b + 1) (ni + 1) st with
          | error e => rw [hrec] at h; exact absurd h (by simp)
          | ok t =>
            obtain ⟨rest', ni'', st''⟩ := t
            rw [hrec] at h
            simp only [Except.ok.injEq, Prod.mk.injEq] at h
            obtain ⟨h1, h2, h3⟩ := h
            subst h1; subst h2; subst h3
            obtain ⟨l1, l2, l3, l4, l5⟩ := ih _ _ _ _ _ _ hrec
            refine ⟨by simp [l1], by omega, l3, l4, ?_⟩
            refine slotsNorm_cons_iff.mpr
              ⟨⟨fun hle => absurd hle (by omega),
                fun _ => hnz w (List.get?_mem hw)⟩, l5⟩
      · rw [if_neg hc2] at h
        cases hrec : indirect_loop size nbl rest (b + 1) ni st with
        | error e => rw [hrec] at h; exact absurd h (by simp)
        | ok t =>
          obtain ⟨rest', ni'', st''⟩ := t
          rw [hrec] at h
          simp only [Except.ok.injEq, Prod.mk.injEq] at h
          obtain ⟨h1, h2, h3⟩ := h
          subst h1; subst h2; subst h3
          obtain ⟨l1, l2, l3, l4, l5⟩ := ih _ _ _ _ _ _ hrec
          refine ⟨by simp [l1], l2, l3, l4, ?_⟩
          refine slotsNorm_cons_iff.mpr
            ⟨⟨fun hle => by by_contra hv; exact hc1 ⟨hle, hv⟩,
              fun hlt => by intro hv; exact hc2 ⟨hlt, hv⟩⟩, l5⟩

/-- On normalized entries the table-entry loop does nothing. -/
lemma indirect_loop_noop {size : Nat} (nbl : List Nat) :
    ∀ (vs : List Nat) (b ni : Nat) (st : FsState), SlotsNorm vs b size →
    indirect_loop size nbl vs b ni st = .ok (vs, ni, st) := by
  intro vs
  induction vs with
  | nil => intro b ni st _; rfl
  | cons v rest ih =>
    intro b ni st hnorm
    obtain ⟨⟨hz, hnzv⟩, htail⟩ := slotsNorm_cons_iff.mp hnorm
    unfold indirect_loop
    rw [if_neg, if_neg]
    · rw [ih (b + 1) ni st htail]
    · rintro ⟨hlt, hv0⟩
      exact hnzv hlt hv0
    · rintro ⟨hle, hvne⟩
      exact hvne (hz hle)

/-- A list element found by index is not in the tail beyond it, when the
    list has no duplicates. -/
lemma nodup_get?_not_mem_drop {l : List Nat} {n x : Nat} (hn : l.Nodup)
    (h : l.get? n = some x) : x ∉ l.drop (n + 1) := by
  have h1 : n < l.length := by
    by_contra hge
    rw [List.get?_eq_none.mpr (Nat.le_of_not_lt hge)] at h
    exact Option.noConfusion h
  have h2 : l.drop n = l[n] :: l.drop (n + 1) := List.drop_eq_getElem_cons h1
  have h3 : (l.drop n).Nodup := hn.sublist (List.drop_sublist n l)
  rw [h2] at h3
  have h4 : l[n] = x := by
    have h5 := List.get?_eq_getElem? l n
    rw [h5, List.getElem?_eq_getElem h1] at h
    exact Option.some.inj h
  intro hmem
  exact (List.nodup_cons.mp h3).1 (h4 ▸ hmem)

/-- Membership in a longer suffix carries to a shorter one. -/
lemma mem_drop_of_le {l : List Nat} {m n : Nat} (h : n ≤ m) {x : Nat}
    (hx : x ∈ l.drop m) : x ∈ l.drop n :=
  (List.drop_sublist_drop_left l h).subset hx

/-- A list element found by index belongs to the suffix starting there. -/
lemma mem_drop_of_get? {l : List Nat} {n x : Nat} (h : l.get? n = some x) :
    x ∈ l.drop n := by
  have h1 : n < l.length := by
    by_contra hge
    rw [List.get?_eq_none.mpr (Nat.le_of_not_lt hge)] at h
    exact Option.noConfusion h
  have h2 : l.drop n = l[n] :: l.drop (n + 1) := List.drop_eq_getElem_cons h1
  have h4 : l[n] = x := by
    have h5 := List.get?_eq_getElem? l n
    rw [h5, List.getElem?_eq_getElem h1] at h
    exact Option.some.inj h
  rw [h2, h4]
  exact List.mem_cons_self _ _

/-- What one run of the first-level doubly-indirect loop guarantees:
    slot count and pool preserved, batch index monotone, first-level slots
    normalized (against the source's `140 + i` coverage condition), store
    changes confined to slots of the resulting table, provenance of
    non-zero slots (old slots or freshly consumed batch entries), freshly
    consumed entries not reusable, pairwise distinctness of non-zero
    slots, and every covered slot holding a full, normalized second-level
    table in the resulting store. -/
lemma double_loop_post {size : Nat} {nbl : List Nat}
    (hnz : ∀ w ∈ nbl, w ≠ 0) (hnodup : nbl.Nodup) :
    ∀ (vs : List Nat) (i ni : Nat) (st : FsState) (vs' : List Nat)
      (ni' : Nat) (st' : FsState),
    vs.Pairwise (fun a c => a ≠ 0 → c ≠ 0 → a ≠ c) →
    (∀ x ∈ vs, x ≠ 0 → x ∉ nbl) →
    double_loop size nbl vs i ni st = .ok (vs', ni', st') →
    vs'.length = vs.length ∧ ni ≤ ni' ∧ st'.pool = st.pool ∧
    SlotsNorm vs' (140 + i) size ∧
    (∀ s, st'.disk s ≠ st.disk s → s ∈ vs') ∧
    (∀ x ∈ vs', x ≠ 0 → x ∈ vs ∨ x ∈ nbl.drop ni) ∧
    (∀ x ∈ vs', x ≠ 0 → x ∉ nbl.drop ni') ∧
    vs'.Pairwise (fun a c => a ≠ 0 → c ≠ 0 → a ≠ c) ∧
    (∀ j, j < vs'.length → BLOCK_SECTOR_SIZE * (140 + i + j) < size →
      (st'.disk (vs'.getD j 0)).length = 128 ∧
      SlotsNorm (st'.disk (vs'.getD j 0)) (140 + (i + j) * 128) size) := by
  intro vs
  induction vs with
  | nil =>
    intro i ni st vs' ni' st' _ _ h
    unfold double_loop at h
    simp only [Except.ok.injEq, Prod.mk.injEq] at h
    obtain ⟨h1, h2, h3⟩ := h
    subst h1; subst h2; subst h3
    refine ⟨rfl, le_refl _, rfl, slotsNorm_nil _ _, fun s hs => absurd rfl hs,
      by simp, by simp, List.Pairwise.nil, ?_⟩
    intro j hj
    simp at hj
  | cons v rest ih =>
    intro i ni st vs' ni' st' hpair hdisj h
    have hpairhead : ∀ y ∈ rest, v ≠ 0 → y ≠ 0 → v ≠ y :=
      (List.pairwise_cons.mp hpair).1
    have hpairrest := (List.pairwise_cons.mp hpair).2
    have hdisjhead : v ≠ 0 → v ∉ nbl := hdisj v (List.mem_cons_self _ _)
    have hdisjrest : ∀ x ∈ rest, x ≠ 0 → x ∉ nbl :=
      fun x hx => hdisj x (List.mem_cons_of_mem _ hx)
    unfold double_loop at h
    by_cases hc1 : size ≤ BLOCK_SECTOR_SIZE * (140 + i) ∧ v ≠ 0
    · -- shrink of a first-level slot
      rw [if_pos hc1] at h
      cases hrec : double_loop size nbl rest (i + 1) ni
          { st with released := v :: st.released } with
      | error e => rw [hrec] at h; exact absurd h (by simp)
      | ok t =>
        obtain ⟨rest', ni'', st''⟩ := t
        rw [hrec] at h
        simp only [Except.ok.injEq, Prod.mk.injEq] at h
        obtain ⟨h1, h2, h3⟩ := h
        subst h1; subst h2; subst h3
        obtain ⟨l1, l2, l3, l4, l5, l6, l7, l8, l9⟩ :=
          ih (i + 1) ni _ _ _ _ hpairrest hdisjrest hrec
        have harith : 140 + (i + 1) = 140 + i + 1 := by omega
        refine ⟨by simp [l1], l2, l3, ?_, ?_, ?_, ?_, ?_, ?_⟩
        · refine slotsNorm_cons_iff.mpr
            ⟨⟨fun _ => rfl, fun hlt => absurd hlt (by omega)⟩, ?_⟩
          rw [← harith]; exact l4
        · intro s hs
          exact List.mem_cons_of_mem _ (l5 s hs)
        · intro x hx hxnz
          rcases List.mem_cons.mp hx with hx0 | hxr
          · exact absurd hx0 hxnz
          · rcases l6 x hxr hxnz with h' | h'
            · exact Or.inl (List.mem_cons_of_mem _ h')
            · exact Or.inr h'
        · intro x hx hxnz
          rcases List.mem_cons.mp hx with hx0 | hxr
          · exact absurd hx0 hxnz
          · exact l7 x hxr hxnz
        · exact List.pairwise_cons.mpr ⟨fun y _ h0 _ => absurd rfl h0, l8⟩
        · intro j hj hcov
          cases j with
          | zero =>
            have h140 : 140 + i + 0 = 140 + i := by omega
            rw [h140] at hcov
            exact absurd hcov (by omega)
          | succ n =>
            have hn : n < rest'.length := by simpa using hj
            have hcov' : BLOCK_SECTOR_SIZE * (140 + (i + 1) + n) < size := by
              have : 140 + (i + 1) + n = 140 + i + (n + 1) := by omega
              rw [this]; exact hcov
            have := l9 n hn hcov'
            have harith2 : i + 1 + n = i + (n + 1) := by omega
            rw [harith2] at this
            simpa using this
    · rw [if_neg hc1] at h
      by_cases hc2 : BLOCK_SECTOR_SIZE * (140 + i) < size
      · -- the grow branch runs for every covered slot
        rw [if_pos hc2] at h
        cases hfr : (if v = 0 then (nbl.get? ni).map (fun w => (w, zeros128, ni + 1))
                     else some (v, read_table st.disk v, ni)) with
        | none =>
          simp only [hfr] at h
          exact absurd h (by simp)
        | some t =>
          obtain ⟨v', buf2, ni₁⟩ := t
          simp only [hfr] at h
          have hfacts : v' ≠ 0 ∧ buf2.length = 128 ∧ ni ≤ ni₁ ∧
              ((nbl.get? ni = some v' ∧ ni₁ = ni + 1) ∨
               (v' = v ∧ v ≠ 0 ∧ ni₁ = ni)) := by
            by_cases hv0 : v = 0
            · rw [if_pos hv0] at hfr
              cases hw : nbl.get? ni with
              | none => rw [hw] at hfr; simp at hfr
              | some w =>
                rw [hw] at hfr
                simp only [Option.map_some', Option.some.injEq,
                  Prod.mk.injEq] at hfr
                obtain ⟨e1, e2, e3⟩ := hfr
                subst e1; subst e2; subst e3
                refine ⟨hnz w (List.get?_mem hw), by simp [zeros128], by omega,
                  Or.inl ⟨rfl, rfl⟩⟩
            · rw [if_neg hv0] at hfr
              simp only [Option.some.injEq, Prod.mk.injEq] at hfr
              obtain ⟨e1, e2, e3⟩ := hfr
              subst e1; subst e2; subst e3
              exact ⟨hv0, List.takeD_length _ _ _, le_refl _,
                Or.inr ⟨rfl, hv0, rfl⟩⟩
          obtain ⟨hv'nz, hbuf2len, hni₁, hv'case⟩ := hfacts
          cases hil : indirect_loop size nbl buf2 (140 + i * 128) ni₁ st with
          | error e =>
            simp only [hil] at h
            exact absurd h (by simp)
          | ok t2 =>
            obtain ⟨buf2', ni₂, st₂⟩ := t2
            simp only [hil] at h
            cases hrec : double_loop size nbl rest (i + 1) ni₂
                { st₂ with disk := diskWrite st₂.disk v' buf2' } with
            | error e =>
              simp only [hrec] at h
              exact absurd h (by simp)
            | ok t3 =>
              obtain ⟨rest', ni'', st''⟩ := t3
              simp only [hrec, Except.ok.injEq, Prod.mk.injEq] at h
              obtain ⟨h1, h2, h3⟩ := h
              subst h1; subst h2; subst h3
              obtain ⟨k1, k2, k3, k4, k5⟩ := indirect_loop_post hnz _ _ _ _ _ _ _ hil
              obtain ⟨l1, l2, l3, l4, l5, l6, l7, l8, l9⟩ :=
                ih (i + 1) ni₂ _ _ _ _ hpairrest hdisjrest hrec
              -- the head slot is distinct from everything the tail can name
              have hv'rest : ∀ y ∈ rest, y ≠ 0 → v' ≠ y := by
                intro y hy hynz
                rcases hv'case with ⟨hw, _⟩ | ⟨he, hvnz, _⟩
                · intro he
                  exact hdisjrest y hy hynz (he ▸ List.get?_mem hw)
                · exact he ▸ hpairhead y hy hvnz hynz
              have hv'drop : v' ∉ nbl.drop ni₁ := by
                rcases hv'case with ⟨hw, he⟩ | ⟨he, hvnz, he'⟩
                · rw [he]
                  exact nodup_get?_not_mem_drop hnodup hw
                · intro hmem
                  exact hdisjhead (he ▸ hvnz) ((List.drop_subset _ _) (he ▸ hmem))
              have hnotin : v' ∉ rest' := by
                intro hmem
                rcases l6 v' hmem hv'nz with hr | hd
                · exact hv'rest v' hr hv'nz rfl
                · exact hv'drop (mem_drop_of_le k2 hd)
              have hdiskv' : st''.disk v' = buf2' := by
                by_cases hch : st''.disk v' = diskWrite st₂.disk v' buf2' v'
                · rw [hch]
                  exact diskWrite_at _ _ _
                · exact absurd (l5 v' hch) hnotin
              have harith : 140 + (i + 1) = 140 + i + 1 := by omega
              refine ⟨by simp [l1], by omega, by rw [l3]; exact k3, ?_, ?_, ?_, ?_, ?_, ?_⟩
              · refine slotsNorm_cons_iff.mpr
                  ⟨⟨fun hle => absurd hle (by omega), fun _ => hv'nz⟩, ?_⟩
                rw [← harith]; exact l4
              · intro s hs
                by_cases hch : st''.disk s = diskWrite st₂.disk v' buf2' s
                · rw [hch] at hs
                  by_cases hsv : s = v'
                  · exact hsv ▸ List.mem_cons_self _ _
                  · rw [diskWrite_ne _ _ _ hsv, k4] at hs
                    exact absurd rfl hs
                · exact List.mem_cons_of_mem _ (l5 s hch)
              · intro x hx hxnz
                rcases List.mem_cons.mp hx with hx0 | hxr
                · subst hx0
                  rcases hv'case with ⟨hw, _⟩ | ⟨he, _, _⟩
                  · exact Or.inr (mem_drop_of_get? hw)
                  · exact Or.inl (he ▸ List.mem_cons_self _ _)
                · rcases l6 x hxr hxnz with h' | h'
                  · exact Or.inl (List.mem_cons_of_mem _ h')
                  · exact Or.inr (mem_drop_of_le (by omega) h')
              · intro x hx hxnz
                rcases List.mem_cons.mp hx with hx0 | hxr
                · subst hx0
                  intro hmem
                  exact hv'drop (mem_drop_of_le (by omega) hmem)
                · exact l7 x hxr hxnz
              · refine List.pairwise_cons.mpr ⟨?_, l8⟩
                intro y hy _ hynz he
                exact hnotin (he ▸ hy)
              · intro j hj hcov
                cases j with
                | zero =>
                  refine ⟨?_, ?_⟩
                  · simpa [hdiskv'] using k1 ▸ hbuf2len
                  · have : 140 + (i + 0) * 128 = 140 + i * 128 := by omega
                    rw [this]
                    simpa [hdiskv'] using k5
                | succ n =>
                  have hn : n < rest'.length := by simpa using hj
                  have hcov' : BLOCK_SECTOR_SIZE * (140 + (i + 1) + n) < size := by
                    have : 140 + (i + 1) + n = 140 + i + (n + 1) := by omega
                    rw [this]; exact hcov
                  have := l9 n hn hcov'
                  have harith2 : i + 1 + n = i + (n + 1) := by omega
                  rw [harith2] at this
                  simpa using this
      · -- uncovered and clear: nothing to do for this slot
        rw [if_neg hc2] at h
        have hv0 : v = 0 := by
          by_contra hv
          exact hc1 ⟨by omega, hv⟩
        cases hrec : double_loop size nbl rest (i + 1) ni st with
        | error e => rw [hrec] at h; exact absurd h (by simp)
        | ok t =>
          obtain ⟨rest', ni'', st''⟩ := t
          rw [hrec] at h
          simp only [Except.ok.injEq, Prod.mk.injEq] at h
          obtain ⟨h1, h2, h3⟩ := h
          subst h1; subst h2; subst h3
          obtain ⟨l1, l2, l3, l4, l5, l6, l7, l8, l9⟩ :=
            ih (i + 1) ni _ _ _ _ hpairrest hdisjrest hrec
          have harith : 140 + (i + 1) = 140 + i + 1 := by omega
          refine ⟨by simp [l1], l2, l3, ?_, ?_, ?_, ?_, ?_, ?_⟩
          · refine slotsNorm_cons_iff.mpr
              ⟨⟨fun _ => hv0, fun hlt => absurd hlt hc2⟩, ?_⟩
            rw [← harith]; exact l4
          · intro s hs
            exact List.mem_cons_of_mem _ (l5 s hs)
          · intro x hx hxnz
            rcases List.mem_cons.mp hx with hx0 | hxr
            · exact absurd (hx0.trans hv0) hxnz
            · rcases l6 x hxr hxnz with h' | h'
              · exact Or.inl (List.mem_cons_of_mem _ h')
              · exact Or.inr h'
          · intro x hx hxnz
            rcases List.mem_cons.mp hx with hx0 | hxr
            · exact absurd (hx0.trans hv0) hxnz
            · exact l7 x hxr hxnz
          · refine List.pairwise_cons.mpr ⟨?_, l8⟩
            intro y _ h0 _
            exact absurd hv0 h0
          · intro j hj hcov
            cases j with
            | zero => exact absurd hcov (by simpa using hc2)
            | succ n =>
              have hn : n < rest'.length := by simpa using hj
              have hcov' : BLOCK_SECTOR_SIZE * (140 + (i + 1) + n) < size := by
                have : 140 + (i + 1) + n = 140 + i + (n + 1) := by omega
                rw [this]; exact hcov
              have := l9 n hn hcov'
              have harith2 : i + 1 + n = i + (n + 1) := by omega
              rw [harith2] at this
              simpa using this

/-- On a normalized first-level table whose covered slots all point to
    full, normalized second-level tables, the first-level loop rewrites
    every table with its own contents and changes nothing. -/
lemma double_loop_noop {size : Nat} (nbl : List Nat) :
    ∀ (vs : List Nat) (i ni : Nat) (st : FsState),
    SlotsNorm vs (140 + i) size →
    (∀ j, j < vs.length → BLOCK_SECTOR_SIZE * (140 + i + j) < size →
      (st.disk (vs.getD j 0)).length = 128 ∧
      SlotsNorm (st.disk (vs.getD j 0)) (140 + (i + j) * 128) size) →
    double_loop size nbl vs i ni st = .ok (vs, ni, st) := by
  intro vs
  induction vs with
  | nil => intro i ni st _ _; rfl
  | cons v rest ih =>
    intro i ni st hnorm htab
    obtain ⟨⟨hz, hnzv⟩, htail⟩ := slotsNorm_cons_iff.mp hnorm
    have htail' : SlotsNorm rest (140 + (i + 1)) size := by
      have : 140 + (i + 1) = 140 + i + 1 := by omega
      rw [this]; exact htail
    have htab' : ∀ j, j < rest.length →
        BLOCK_SECTOR_SIZE * (140 + (i + 1) + j) < size →
        (st.disk (rest.getD j 0)).length = 128 ∧
        SlotsNorm (st.disk (rest.getD j 0)) (140 + ((i + 1) + j) * 128) size := by
      intro j hj hcov
      have hcov' : BLOCK_SECTOR_SIZE * (140 + i + (j + 1)) < size := by
        have : 140 + i + (j + 1) = 140 + (i + 1) + j := by omega
        rw [this]; exact hcov
      have := htab (j + 1) (by simpa using hj) hcov'
      have harith : i + (j + 1) = i + 1 + j := by omega
      rw [harith] at this
      simpa using this
    unfold double_loop
    by_cases hc2 : BLOCK_SECTOR_SIZE * (140 + i) < size
    · have hvnz : v ≠ 0 := hnzv hc2
      rw [if_neg (by rintro ⟨hle, _⟩; omega), if_pos hc2]
      have htab0 := htab 0 (by simp) (by
        have : 140 + i + 0 = 140 + i := by omega
        rw [this]; exact hc2)
      have htab0len : (st.disk v).length = 128 := by simpa using htab0.1
      have htab0norm : SlotsNorm (st.disk v) (140 + i * 128) size := by
        have h0 := htab0.2
        have : 140 + (i + 0) * 128 = 140 + i * 128 := by omega
        rw [this] at h0
        simpa using h0
      have hrt : read_table st.disk v = st.disk v := read_table_eq_self htab0len
      simp only [if_neg hvnz, hrt]
      rw [indirect_loop_noop nbl (st.disk v) (140 + i * 128) ni st htab0norm]
      simp only [diskWrite_self]
      rw [ih (i + 1) ni st htail' htab']
    · have hv0 : v = 0 := hz (by omega)
      rw [if_neg (by rintro ⟨_, hvne⟩; exact hvne hv0), if_neg hc2]
      rw [ih (i + 1) ni st htail' htab']

/-- On fully reconciled metadata the doubly-indirect stage rewrites what
    is already there and succeeds without changing anything. -/
lemma resize_double_stage_noop (m : InodeDisk) (size : Nat) (nbl : List Nat)
    (ni₃ : Nat) (st : FsState) (hlen : m.length = size)
    (hdd : ¬(m.indirect_double = 0 ∧ size ≤ 140 * BLOCK_SECTOR_SIZE) →
      m.indirect_double ≠ 0 ∧ (st.disk m.indirect_double).length = 128 ∧
      SlotsNorm (st.disk m.indirect_double) 140 size ∧
      (∀ j, j < 128 → BLOCK_SECTOR_SIZE * (140 + j) < size →
        (st.disk m.indirect_double).getD j 0 ≠ 0 ∧
        (st.disk ((st.disk m.indirect_double).getD j 0)).length = 128 ∧
        SlotsNorm (st.disk ((st.disk m.indirect_double).getD j 0))
          (140 + j * 128) size)) :
    resize_double_stage m size nbl m.direct m.indirect ni₃ st = .ok (m, st, true) := by
  unfold resize_double_stage
  by_cases hc : m.indirect_double = 0 ∧ size ≤ 140 * BLOCK_SECTOR_SIZE
  · rw [if_pos hc]
    have hm : ({ m with
        direct := m.direct
        indirect := m.indirect
        length := size } : InodeDisk) = m := by
      rw [← hlen]
    rw [hm]
  · rw [if_neg hc]
    obtain ⟨hdnz, hdlen, hdnorm, htabs⟩ := hdd hc
    have hrt : read_table st.disk m.indirect_double = st.disk m.indirect_double :=
      read_table_eq_self hdlen
    simp only [if_neg hdnz, hrt]
    have hnorm0 : SlotsNorm (st.disk m.indirect_double) (140 + 0) size := by
      simpa using hdnorm
    have htabs0 : ∀ j, j < (st.disk m.indirect_double).length →
        BLOCK_SECTOR_SIZE * (140 + 0 + j) < size →
        (st.disk ((st.disk m.indirect_double).getD j 0)).length = 128 ∧
        SlotsNorm (st.disk ((st.disk m.indirect_double).getD j 0))
          (140 + (0 + j) * 128) size := by
      intro j hj hcov
      have hj' : j < 128 := hdlen ▸ hj
      have hcov' : BLOCK_SECTOR_SIZE * (140 + j) < size := by
        have h0 : 140 + 0 + j = 140 + j := by omega
        rw [h0] at hcov; exact hcov
      have hpart := htabs j hj' hcov'
      have harith : (0 + j) * 128 = j * 128 := by omega
      rw [harith]
      exact ⟨hpart.2.1, hpart.2.2⟩
    rw [double_loop_noop nbl (st.disk m.indirect_double) 0 ni₃ st hnorm0 htabs0]
    simp only [diskWrite_self]
    have hm : ({ m with
        direct := m.direct
        indirect := m.indirect
        indirect_double := m.indirect_double
        length := size } : InodeDisk) = m := by
      rw [← hlen]
    rw [hm]

/-- On fully reconciled metadata the single-indirect stage rewrites what
    is already there, succeeds, and changes nothing. -/
lemma resize_indirect_stage_noop (m : InodeDisk) (size : Nat) (nbl : List Nat)
    (ni₁ : Nat) (st : FsState) (hlen : m.length = size)
    (hii : ¬(m.indirect = 0 ∧ size ≤ 12 * BLOCK_SECTOR_SIZE) →
      m.indirect ≠ 0 ∧ (st.disk m.indirect).length = 128 ∧
      SlotsNorm (st.disk m.indirect) 12 size ∧
      (¬(m.indirect_double = 0 ∧ size ≤ 140 * BLOCK_SECTOR_SIZE) →
        m.indirect_double ≠ 0 ∧ (st.disk m.indirect_double).length = 128 ∧
        SlotsNorm (st.disk m.indirect_double) 140 size ∧
        (∀ j, j < 128 → BLOCK_SECTOR_SIZE * (140 + j) < size →
          (st.disk m.indirect_double).getD j 0 ≠ 0 ∧
          (st.disk ((st.disk m.indirect_double).getD j 0)).length = 128 ∧
          SlotsNorm (st.disk ((st.disk m.indirect_double).getD j 0))
            (140 + j * 128) size))) :
    resize_indirect_stage m size nbl m.direct ni₁ st = .ok (m, st, true) := by
  unfold resize_indirect_stage
  by_cases hc : m.indirect = 0 ∧ size ≤ 12 * BLOCK_SECTOR_SIZE
  · rw [if_pos hc]
    have hm : ({ m with
        direct := m.direct
        length := size } : InodeDisk) = m := by
      rw [← hlen]
    rw [hm]
  · rw [if_neg hc]
    obtain ⟨hinz, hilen, hinorm, hddclause⟩ := hii hc
    have hrt : read_table st.disk m.indirect = st.disk m.indirect :=
      read_table_eq_self hilen
    simp only [if_neg hinz, hrt]
    rw [indirect_loop_noop nbl (st.disk m.indirect) 12 ni₁ st hinorm]
    simp only [diskWrite_self]
    exact resize_double_stage_noop m size nbl ni₁ st hlen hddclause

/-- Resizing fully reconciled metadata to its own length succeeds and
    leaves metadata, store, pool and release log untouched. -/
lemma resize_noop (m : InodeDisk) (size : Nat) (st : FsState)
    (h : Normalized m st size) : inode_resize m size st = .ok (m, st, true) := by
  obtain ⟨hlen, hdir, hind⟩ := h
  have hreq : resize_request m size = 0 := by
    unfold resize_request sub32
    rw [hlen]
    simp
  unfold inode_resize
  rw [hreq]
  have halloc : free_map_allocate_non_consecutive 0 st.pool = some ([], st.pool) := by
    unfold free_map_allocate_non_consecutive
    simp
  simp only [halloc]
  rw [direct_loop_noop [] m.direct 0 0 { st with pool := st.pool } hdir]
  exact resize_indirect_stage_noop m size [] 0 st hlen hind

/-- An all-zero table trivially has pairwise-distinct non-zero entries. -/
lemma pairwise_ne_replicate_zero (n : Nat) :
    (List.replicate n (0 : Nat)).Pairwise (fun a c => a ≠ 0 → c ≠ 0 → a ≠ c) := by
  induction n with
  | zero => simp
  | succ k ih =>
    rw [List.replicate_succ]
    exact List.pairwise_cons.mpr ⟨fun y _ h0 _ => absurd rfl h0, ih⟩

/-- What a successful run of the doubly-indirect stage (returning true)
    guarantees, given a normalized direct array and single-indirect table
    and the distinctness facts the data model provides: the resulting
    metadata and store are fully reconciled with the new length. -/
lemma resize_double_stage_post (m : InodeDisk) (size : Nat) (nbl : List Nat)
    (direct' : List Nat) (indPtr ni₃ : Nat) (st₄ : FsState)
    (hnz : ∀ w ∈ nbl, w ≠ 0) (hnodup : nbl.Nodup)
    (hdir : SlotsNorm direct' 0 size)
    (hindnz : indPtr ≠ 0)
    (hindlen : (st₄.disk indPtr).length = 128)
    (hindnorm : SlotsNorm (st₄.disk indPtr) 12 size)
    (hind_drop : indPtr ∉ nbl.drop ni₃)
    (hind_dbl : m.indirect_double ≠ 0 → indPtr ≠ m.indirect_double)
    (hdbl_nbl : m.indirect_double ∉ nbl)
    (hD2 : m.indirect_double ≠ 0 →
      (read_table st₄.disk m.indirect_double).Pairwise
        (fun a c => a ≠ 0 → c ≠ 0 → a ≠ c) ∧
      (∀ v ∈ read_table st₄.disk m.indirect_double, v ≠ 0 →
        v ∉ nbl ∧ v ≠ indPtr ∧ v ≠ m.indirect_double))
    (m' : InodeDisk) (st' : FsState)
    (h : resize_double_stage m size nbl direct' indPtr ni₃ st₄ = .ok (m', st', true)) :
    Normalized m' st' size := by
  unfold resize_double_stage at h
  by_cases hc : m.indirect_double = 0 ∧ size ≤ 140 * BLOCK_SECTOR_SIZE
  · rw [if_pos hc] at h
    simp only [Except.ok.injEq, Prod.mk.injEq] at h
    obtain ⟨hm, hst, _⟩ := h
    subst hm; subst hst
    refine ⟨rfl, hdir, ?_⟩
    intro _
    refine ⟨hindnz, hindlen, hindnorm, ?_⟩
    intro hguard2
    exact absurd ⟨hc.1, hc.2⟩ hguard2
  · rw [if_neg hc] at h
    cases hfr : (if m.indirect_double = 0 then
          (nbl.get? ni₃).map (fun w => (w, zeros128, ni₃ + 1))
        else some (m.indirect_double, read_table st₄.disk m.indirect_double, ni₃)) with
    | none =>
      simp only [hfr] at h
      exact absurd h (by simp)
    | some t =>
      obtain ⟨dblPtr, buf1, ni₄⟩ := t
      simp only [hfr] at h
      have hfacts : dblPtr ≠ 0 ∧ buf1.length = 128 ∧
          buf1.Pairwise (fun a c => a ≠ 0 → c ≠ 0 → a ≠ c) ∧
          (∀ x ∈ buf1, x ≠ 0 → x ∉ nbl) ∧
          (∀ x ∈ buf1, x ≠ 0 → x ≠ indPtr ∧ x ≠ dblPtr) ∧
          indPtr ≠ dblPtr ∧ dblPtr ∉ nbl.drop ni₄ ∧ ni₃ ≤ ni₄ := by
        by_cases hd0 : m.indirect_double = 0
        · rw [if_pos hd0] at hfr
          cases hgw : nbl.get? ni₃ with
          | none => rw [hgw] at hfr; simp at hfr
          | some w =>
            rw [hgw] at hfr
            simp only [Option.map_some', Option.some.injEq, Prod.mk.injEq] at hfr
            obtain ⟨e1, e2, e3⟩ := hfr
            subst e1; subst e2; subst e3
            refine ⟨hnz w (List.get?_mem hgw), by simp [zeros128],
              pairwise_ne_replicate_zero 128, ?_, ?_, ?_, ?_, by omega⟩
            · intro x hx hxnz
              exact absurd (List.eq_of_mem_replicate hx) hxnz
            · intro x hx hxnz
              exact absurd (List.eq_of_mem_replicate hx) hxnz
            · intro he
              exact hind_drop (he ▸ mem_drop_of_get? hgw)
            · exact nodup_get?_not_mem_drop hnodup hgw
        · rw [if_neg hd0] at hfr
          simp only [Option.some.injEq, Prod.mk.injEq] at hfr
          obtain ⟨e1, e2, e3⟩ := hfr
          subst e1; subst e2; subst e3
          obtain ⟨hp, hv⟩ := hD2 hd0
          refine ⟨hd0, List.takeD_length _ _ _, hp, ?_, ?_, hind_dbl hd0, ?_, le_refl _⟩
          · intro x hx hxnz
            exact (hv x hx hxnz).1
          · intro x hx hxnz
            exact ⟨(hv x hx hxnz).2.1, (hv x hx hxnz).2.2⟩
          · intro hmem
            exact hdbl_nbl ((List.drop_subset _ _) hmem)
      obtain ⟨hdnz, hb1len, hb1pair, hb1nbl, hb1ne, hipd, hdbl_drop, hni₄⟩ := hfacts
      cases hdl : double_loop size nbl buf1 0 ni₄ st₄ with
      | error e =>
        simp only [hdl] at h
        exact absurd h (by simp)
      | ok t2 =>
        obtain ⟨buf1', nix, st₅⟩ := t2
        simp only [hdl, Except.ok.injEq, Prod.mk.injEq] at h
        obtain ⟨hm, hst, _⟩ := h
        subst hm; subst hst
        obtain ⟨d1, d2, d3, d4, d5, d6, d7, d8, d9⟩ :=
          double_loop_post hnz hnodup buf1 0 ni₄ st₄ buf1' nix st₅ hb1pair hb1nbl hdl
        have hindne' : ∀ x ∈ buf1', x ≠ 0 → x ≠ indPtr := by
          intro x hx hxnz he
          rcases d6 x hx hxnz with hold | hdrop
          · exact (hb1ne x hold hxnz).1 he
          · exact hind_drop (mem_drop_of_le hni₄ (he ▸ hdrop))
        have hdblne' : ∀ x ∈ buf1', x ≠ 0 → x ≠ dblPtr := by
          intro x hx hxnz he
          rcases d6 x hx hxnz with hold | hdrop
          · exact (hb1ne x hold hxnz).2 he
          · exact hdbl_drop (he ▸ hdrop)
        have hb1'len : buf1'.length = 128 := by rw [d1]; exact hb1len
        have hdiskind : diskWrite st₅.disk dblPtr buf1' indPtr = st₄.disk indPtr := by
          rw [diskWrite_ne _ _ _ hipd]
          by_cases hch : st₅.disk indPtr = st₄.disk indPtr
          · exact hch
          · exact absurd (d5 indPtr hch) (fun hmem => hindne' indPtr hmem hindnz rfl)
        refine ⟨rfl, hdir, ?_⟩
        intro _
        refine ⟨hindnz, ?_, ?_, ?_⟩
        · show (diskWrite st₅.disk dblPtr buf1' indPtr).length = 128
          rw [hdiskind]
          exact hindlen
        · show SlotsNorm (diskWrite st₅.disk dblPtr buf1' indPtr) 12 size
          rw [hdiskind]
          exact hindnorm
        · intro _
          refine ⟨hdnz, ?_, ?_, ?_⟩
          · show (diskWrite st₅.disk dblPtr buf1' dblPtr).length = 128
            rw [diskWrite_at]
            exact hb1'len
          · show SlotsNorm (diskWrite st₅.disk dblPtr buf1' dblPtr) 140 size
            rw [diskWrite_at]
            simpa using d4
          · intro j hj hcov
            have hj' : j < buf1'.length := by rw [hb1'len]; exact hj
            have hcov0 : BLOCK_SECTOR_SIZE * (140 + 0 + j) < size := by
              have h0 : 140 + 0 + j = 140 + j := by omega
              rw [h0]
              exact hcov
            have hvj := d4 j hj'
            have hvjnz : buf1'.getD j 0 ≠ 0 := by
              have := (hvj.2 (by
                have h0 : 140 + 0 + j = 140 + j := by omega
                rw [h0]
                exact hcov))
              exact this
            have hvjmem : buf1'.getD j 0 ∈ buf1' := by
              rw [List.getD_eq_getElem buf1' 0 hj']
              exact List.getElem_mem hj'
            have hvjnedbl : buf1'.getD j 0 ≠ dblPtr := hdblne' _ hvjmem hvjnz
            have hd9 := d9 j hj' hcov0
            have hwr : diskWrite st₅.disk dblPtr buf1' dblPtr = buf1' :=
              diskWrite_at _ _ _
            refine ⟨?_, ?_, ?_⟩
            · show (diskWrite st₅.disk dblPtr buf1' dblPtr).getD j 0 ≠ 0
              rw [hwr]
              exact hvjnz
            · show (diskWrite st₅.disk dblPtr buf1'
                  ((diskWrite st₅.disk dblPtr buf1' dblPtr).getD j 0)).length = 128
              rw [hwr, diskWrite_ne _ _ _ hvjnedbl]
              exact hd9.1
            · show SlotsNorm (diskWrite st₅.disk dblPtr buf1'
                  ((diskWrite st₅.disk dblPtr buf1' dblPtr).getD j 0))
                  (140 + j * 128) size
              rw [hwr, diskWrite_ne _ _ _ hvjnedbl]
              have := hd9.2
              have h0 : (0 + j) * 128 = j * 128 := by omega
              rw [h0] at this
              exact this

/-- What a successful run of the single-indirect stage (returning true)
    guarantees, given a normalized direct array and the distinctness facts
    of the data model: the result is fully reconciled. -/
lemma resize_indirect_stage_post (m : InodeDisk) (size : Nat) (nbl : List Nat)
    (direct' : List Nat) (ni₁ : Nat) (st₂ : FsState)
    (hnz : ∀ w ∈ nbl, w ≠ 0) (hnodup : nbl.Nodup)
    (hdir : SlotsNorm direct' 0 size)
    (hii_nbl : m.indirect ∉ nbl) (hdd_nbl : m.indirect_double ∉ nbl)
    (hii_dd : m.indirect ≠ 0 → m.indirect_double ≠ 0 → m.indirect ≠ m.indirect_double)
    (hD2 : m.indirect_double ≠ 0 →
      (read_table st₂.disk m.indirect_double).Pairwise
        (fun a c => a ≠ 0 → c ≠ 0 → a ≠ c) ∧
      (∀ v ∈ read_table st₂.disk m.indirect_double, v ≠ 0 →
        v ∉ nbl ∧ v ≠ m.indirect ∧ v ≠ m.indirect_double))
    (m' : InodeDisk) (st' : FsState)
    (h : resize_indirect_stage m size nbl direct' ni₁ st₂ = .ok (m', st', true)) :
    Normalized m' st' size := by
  unfold resize_indirect_stage at h
  by_cases hc : m.indirect = 0 ∧ size ≤ 12 * BLOCK_SECTOR_SIZE
  · rw [if_pos hc] at h
    simp only [Except.ok.injEq, Prod.mk.injEq] at h
    obtain ⟨hm, hst, _⟩ := h
    subst hm; subst hst
    refine ⟨rfl, hdir, ?_⟩
    intro hguard
    exact absurd ⟨hc.1, hc.2⟩ hguard
  · rw [if_neg hc] at h
    cases hfr : (if m.indirect = 0 then
          (nbl.get? ni₁).map (fun w => (w, zeros128, ni₁ + 1))
        else some (m.indirect, read_table st₂.disk m.indirect, ni₁)) with
    | none =>
      simp only [hfr] at h
      exact absurd h (by simp)
    | some t =>
      obtain ⟨indPtr, buf, ni₂⟩ := t
      simp only [hfr] at h
      have hfacts : indPtr ≠ 0 ∧ buf.length = 128 ∧ ni₁ ≤ ni₂ ∧
          indPtr ∉ nbl.drop ni₂ ∧
          (m.indirect_double ≠ 0 → indPtr ≠ m.indirect_double) ∧
          (m.indirect_double ≠ 0 →
            ∀ v ∈ read_table st₂.disk m.indirect_double, v ≠ 0 → v ≠ indPtr) := by
        by_cases hi0 : m.indirect = 0
        · rw [if_pos hi0] at hfr
          cases hgw : nbl.get? ni₁ with
          | none => rw [hgw] at hfr; simp at hfr
          | some w =>
            rw [hgw] at hfr
            simp only [Option.map_some', Option.some.injEq, Prod.mk.injEq] at hfr
            obtain ⟨e1, e2, e3⟩ := hfr
            subst e1; subst e2; subst e3
            refine ⟨hnz w (List.get?_mem hgw), by simp [zeros128], by omega,
              nodup_get?_not_mem_drop hnodup hgw, ?_, ?_⟩
            · intro _ he
              exact hdd_nbl (he ▸ List.get?_mem hgw)
            · intro hd v hv hvnz he
              exact ((hD2 hd).2 v hv hvnz).1 (he ▸ List.get?_mem hgw)
        · rw [if_neg hi0] at hfr
          simp only [Option.some.injEq, Prod.mk.injEq] at hfr
          obtain ⟨e1, e2, e3⟩ := hfr
          subst e1; subst e2; subst e3
          refine ⟨hi0, List.takeD_length _ _ _, le_refl _, ?_, ?_, ?_⟩
          · intro hmem
            exact hii_nbl ((List.drop_subset _ _) hmem)
          · intro hd
            exact hii_dd hi0 hd
          · intro hd v hv hvnz he
            exact ((hD2 hd).2 v hv hvnz).2.1 he
      obtain ⟨hindnz, hbuflen, hni₂, hind_drop₂, hind_dbl, hD2ind⟩ := hfacts
      cases hil : indirect_loop size nbl buf 12 ni₂ st₂ with
      | error e =>
        simp only [hil] at h
        exact absurd h (by simp)
      | ok t2 =>
        obtain ⟨buf', ni₃, st₃⟩ := t2
        simp only [hil] at h
        obtain ⟨k1, k2, k3, k4, k5⟩ := indirect_loop_post hnz buf 12 ni₂ st₂ _ _ _ hil
        have hdisk_dbl : m.indirect_double ≠ 0 →
            diskWrite st₃.disk indPtr buf' m.indirect_double =
              st₂.disk m.indirect_double := by
          intro hd
          rw [diskWrite_ne _ _ _ (Ne.symm (hind_dbl hd)), k4]
        have hrt_dbl : m.indirect_double ≠ 0 →
            read_table (diskWrite st₃.disk indPtr buf') m.indirect_double =
              read_table st₂.disk m.indirect_double := by
          intro hd
          unfold read_table
          rw [hdisk_dbl hd]
        refine resize_double_stage_post m size nbl direct' indPtr ni₃
          { st₃ with disk := diskWrite st₃.disk indPtr buf' }
          hnz hnodup hdir hindnz ?_ ?_ ?_ hind_dbl hdd_nbl ?_ m' st' h
        · show (diskWrite st₃.disk indPtr buf' indPtr).length = 128
          rw [diskWrite_at, k1, hbuflen]
        · show SlotsNorm (diskWrite st₃.disk indPtr buf' indPtr) 12 size
          rw [diskWrite_at]
          exact k5
        · intro hmem
          exact hind_drop₂ (mem_drop_of_le k2 hmem)
        · intro hd
          show (read_table (diskWrite st₃.disk indPtr buf') m.indirect_double).Pairwise _ ∧ _
          rw [hrt_dbl hd]
          obtain ⟨hp, hv⟩ := hD2 hd
          refine ⟨hp, ?_⟩
          intro v hvmem hvnz
          exact ⟨(hv v hvmem hvnz).1, hD2ind hd v hvmem hvnz, (hv v hvmem hvnz).2.2⟩

/-- A successful `inode_resize` (returning true) on well-formed input
    leaves metadata and store fully reconciled with the new length. -/
lemma resize_post (m : InodeDisk) (size : Nat) (st : FsState)
    (hwf : ResizeWF m st) (m' : InodeDisk) (st' : FsState)
    (h : inode_resize m size st = .ok (m', st', true)) :
    Normalized m' st' size := by
  obtain ⟨hw1, hw2, _, hw4, hw5, hw6, hw7⟩ := hwf
  unfold inode_resize at h
  cases halloc : free_map_allocate_non_consecutive (resize_request m size) st.pool with
  | none =>
    simp only [halloc] at h
    simp only [Except.ok.injEq, Prod.mk.injEq] at h
    exact absurd h.2.2 (by simp)
  | some t =>
    obtain ⟨nbl, pool'⟩ := t
    simp only [halloc] at h
    have hnbleq : nbl = st.pool.take (resize_request m size) := by
      unfold free_map_allocate_non_consecutive at halloc
      by_cases hle : resize_request m size ≤ st.pool.length
      · rw [if_pos hle] at halloc
        simp only [Option.some.injEq, Prod.mk.injEq] at halloc
        exact halloc.1.symm
      · rw [if_neg hle] at halloc
        exact absurd halloc (by simp)
    have hsubp : ∀ x ∈ nbl, x ∈ st.pool := by
      rw [hnbleq]
      exact fun x hx => List.take_subset _ _ hx
    have hnzl : ∀ w ∈ nbl, w ≠ 0 := fun w hw => hw2 w (hsubp w hw)
    have hnodup : nbl.Nodup := by
      rw [hnbleq]
      exact hw1.sublist (List.take_sublist _ _)
    cases hdl : direct_loop size nbl m.direct 0 0 { st with pool := pool' } with
    | error e =>
      simp only [hdl] at h
      exact absurd h (by simp)
    | ok t2 =>
      obtain ⟨direct', ni₁, st₂⟩ := t2
      simp only [hdl] at h
      obtain ⟨g1, g2, g3, g4, g5⟩ := direct_loop_post hnzl m.direct 0 0 _ _ _ _ hdl
      have hdisk2 : st₂.disk m.indirect_double = st.disk m.indirect_double := by
        by_cases hch : st₂.disk m.indirect_double =
            ({ st with pool := pool' } : FsState).disk m.indirect_double
        · exact hch
        · exact absurd (g5 _ hch) (fun hmem => hw5 (hsubp _ hmem))
      refine resize_indirect_stage_post m size nbl direct' ni₁ st₂ hnzl hnodup g4
        (fun hmem => hw4 (hsubp _ hmem)) (fun hmem => hw5 (hsubp _ hmem)) hw6
        ?_ m' st' h
      intro hd
      have hrt : read_table st₂.disk m.indirect_double =
          read_table st.disk m.indirect_double := by
        unfold read_table
        rw [hdisk2]
      rw [hrt]
      obtain ⟨hp, hv⟩ := hw7 hd
      refine ⟨hp, ?_⟩
      intro v hvmem hvnz
      obtain ⟨hv1, hv2, hv3⟩ := hv v hvmem hvnz
      exact ⟨fun hmem => hv1 (hsubp _ hmem), hv2, hv3⟩

/-- Every `Except.ok` result of the doubly-indirect stage carries the
    boolean true. -/
lemma resize_double_stage_flag (m : InodeDisk) (size : Nat) (nbl : List Nat)
    (direct' : List Nat) (indPtr ni₃ : Nat) (st₄ : FsState)
    (a : InodeDisk) (s : FsState) (b : Bool)
    (h : resize_double_stage m size nbl direct' indPtr ni₃ st₄ = .ok (a, s, b)) :
    b = true := by
  unfold resize_double_stage at h
  by_cases hc : m.indirect_double = 0 ∧ size ≤ 140 * BLOCK_SECTOR_SIZE
  · rw [if_pos hc] at h
    simp only [Except.ok.injEq, Prod.mk.injEq] at h
    exact h.2.2.symm
  · rw [if_neg hc] at h
    cases hfr : (if m.indirect_double = 0 then
          (nbl.get? ni₃).map (fun w => (w, zeros128, ni₃ + 1))
        else some (m.indirect_double, read_table st₄.disk m.indirect_double, ni₃)) with
    | none =>
      simp only [hfr] at h
      exact absurd h (by simp)
    | some t =>
      obtain ⟨dblPtr, buf1, ni₄⟩ := t
      simp only [hfr] at h
      cases hdl : double_loop size nbl buf1 0 ni₄ st₄ with
      | error e =>
        simp only [hdl] at h
        exact absurd h (by simp)
      | ok t2 =>
        obtain ⟨buf1', nix, st₅⟩ := t2
        simp only [hdl, Except.ok.injEq, Prod.mk.injEq] at h
        exact h.2.2.symm

/-- Every `Except.ok` result of the single-indirect stage carries the
    boolean true. -/
lemma resize_indirect_stage_flag (m : InodeDisk) (size : Nat) (nbl : List Nat)
    (direct' : List Nat) (ni₁ : Nat) (st₂ : FsState)
    (a : InodeDisk) (s : FsState) (b : Bool)
    (h : resize_indirect_stage m size nbl direct' ni₁ st₂ = .ok (a, s, b)) :
    b = true := by
  unfold resize_indirect_stage at h
  by_cases hc : m.indirect = 0 ∧ size ≤ 12 * BLOCK_SECTOR_SIZE
  · rw [if_pos hc] at h
    simp only [Except.ok.injEq, Prod.mk.injEq] at h
    exact h.2.2.symm
  · rw [if_neg hc] at h
    cases hfr : (if m.indirect = 0 then
          (nbl.get? ni₁).map (fun w => (w, zeros128, ni₁ + 1))
        else some (m.indirect, read_table st₂.disk m.indirect, ni₁)) with
    | none =>
      simp only [hfr] at h
      exact absurd h (by simp)
    | some t =>
      obtain ⟨indPtr, buf, ni₂⟩ := t
      simp only [hfr] at h
      cases hil : indirect_loop size nbl buf 12 ni₂ st₂ with
      | error e =>
        simp only [hil] at h
        exact absurd h (by simp)
      | ok t2 =>
        obtain ⟨buf', ni₃, st₃⟩ := t2
        simp only [hil] at h
        exact resize_double_stage_flag _ _ _ _ _ _ _ _ _ _ h

/-- C8: running `inode_resize` twice in a row with the same target length
    changes nothing the second time — on well-formed metadata and state
    (distinct non-zero pool and index sectors, as the data model and
    allocator contract guarantee), whatever the first call returns
    (success after grow, no-op, or allocation failure), the second call
    returns exactly the same metadata, store, pool, release log and
    boolean. -/
theorem c8_resize_idempotent (m : InodeDisk) (size : Nat) (st : FsState)
    (hwf : ResizeWF m st) (m' : InodeDisk) (st' : FsState) (b : Bool)
    (h : inode_resize m size st = .ok (m', st', b)) :
    inode_resize m' size st' = .ok (m', st', b) := by
  cases b with
  | true => exact resize_noop m' size st' (resize_post m size st hwf m' st' h)
  | false =>
    unfold inode_resize at h ⊢
    cases halloc : free_map_allocate_non_consecutive (resize_request m size) st.pool with
    | none =>
      simp only [halloc] at h
      simp only [Except.ok.injEq, Prod.mk.injEq] at h
      obtain ⟨hm, hst, _⟩ := h
      subst hm; subst hst
      simp only [halloc]
    | some t =>
      obtain ⟨nbl, pool'⟩ := t
      simp only [halloc] at h
      cases hdl : direct_loop size nbl m.direct 0 0 { st with pool := pool' } with
      | error e =>
        simp only [hdl] at h
        exact absurd h (by simp)
      | ok t2 =>
        obtain ⟨direct', ni₁, st₂⟩ := t2
        simp only [hdl] at h
        exact absurd (resize_indirect_stage_flag _ _ _ _ _ _ _ _ _ h) (by simp)

/-- C8 witness: growing the zero-length inode `idem_m` to 512 bytes
    succeeds, and repeating the same resize on the result changes
    nothing. -/
theorem c8_resize_idempotent_witness :
    ResizeWF idem_m idem_st ∧
    inode_resize idem_m 512 idem_st = .ok (idem_m', idem_st', true) ∧
    inode_resize idem_m' 512 idem_st' = .ok (idem_m', idem_st', true) := by
  have hwf : ResizeWF idem_m idem_st := by
    refine ⟨by decide, by decide, by decide, by decide, by decide, ?_, ?_⟩
    · intro hne _
      exact absurd rfl hne
    · intro hne
      exact absurd rfl hne
  have h1 : inode_resize idem_m 512 idem_st = .ok (idem_m', idem_st', true) := rfl
  exact ⟨hwf, h1, c8_resize_idempotent idem_m 512 idem_st hwf idem_m' idem_st' true h1⟩
